import Mathlib

/-!
# Session-key registry and packet demultiplexer (`core/components/handler_storage.go`)

A shallow embedding of `handlerDB.store` and `handlerDB.partition`, followed by the
properties of the demultiplexer.

Conventions of the embedding:
* byte arrays (`lorawan.DevAddr`, `lorawan.EUI64`, `lorawan.AES128Key`) are natural
  numbers; they are only ever compared for equality or used as map keys;
* a Go `map` is a finite association with one binding per key; iterating over it
  (`range`) goes through an enumeration order that the caller does not control;
* `(*lorawan.MACPayload).DecryptFRMPayload` belongs to an external library. It works in
  place on the payload object it is called on and returns an error; it is passed around
  as a function from the key and the current payload to the payload left behind and the
  flag `err == nil`;
* each frame of a batch owns its payload object, so that a frame is a value; the batch as
  the caller finds it after the call is part of the outcome of `partition`;
* the reader/writer lock is explicit state: the number of read locks held and whether
  the write lock is held; a call of `store` that finds the lock taken does not return.
-/

namespace lorawan

/-- Device address, `[4]byte` in the library. -/
abbrev DevAddr := Nat

/-- Application identifier, `[8]byte` in the library. -/
abbrev EUI64 := Nat

/-- AES key, `[16]byte` in the library. -/
abbrev AES128Key := Nat

/-- MAC-layer payload: the port and the frame payload bytes. -/
structure MACPayload where
  FPort : Nat
  FRMPayload : List Nat
deriving DecidableEq

/-- Value of the interface `lorawan.Payload` held by a PHY payload: either a
`*lorawan.MACPayload` or anything else (nil, a join request, ...), for which the type
assertion `.(*lorawan.MACPayload)` fails. -/
inductive Payload where
  | mac (p : MACPayload)
  | other
deriving DecidableEq

/-- Physical payload; only the field read by the handler storage is kept. -/
structure PHYPayload where
  MACPayload : Payload
deriving DecidableEq

end lorawan

namespace core

/-- Modelled from the spec: the external frame type `core.Packet`. `DevAddr` is the
outcome of the accessor `packet.DevAddr()` (`none` when it returns an error), `Metadata`
stands for everything else the frame carries, and `Payload` is the PHY payload. -/
structure Packet where
  DevAddr : Option lorawan.DevAddr
  Metadata : Nat
  Payload : lorawan.PHYPayload
deriving DecidableEq

end core

open lorawan core

/-- The errors of the package; `ErrInvalidPacket` is the only one raised here. -/
inductive Error where
  | ErrInvalidPacket
deriving DecidableEq

/-- The in-place operation `macPayload.DecryptFRMPayload(key)`: from the key and the
payload object as it stands, the payload object as the call leaves it and whether the
call returned no error. -/
abbrev Decrypt := AES128Key → MACPayload → MACPayload × Bool

/-- Key tuple of one application session (`handlerEntry`). -/
structure handlerEntry where
  AppEUI : EUI64
  NwkSKey : AES128Key
  AppSKey : AES128Key
  DevAddr : DevAddr
deriving DecidableEq

/-- One group of the output: the embedded `handlerEntry` and the frames. -/
structure handlerPartition where
  handlerEntry : handlerEntry
  Packets : List Packet
deriving DecidableEq

namespace sync

/-- State of a `sync.RWMutex`: how many read locks are held and whether the write lock
is held. -/
structure RWMutex where
  readers : Nat
  writer : Bool
deriving DecidableEq

/-- `RLock()`, once it has been granted. -/
def RWMutex.RLock (m : RWMutex) : RWMutex := { m with readers := m.readers + 1 }

/-- `RUnlock()`. -/
def RWMutex.RUnlock (m : RWMutex) : RWMutex := { m with readers := m.readers - 1 }

/-- `Lock()`, once it has been granted. -/
def RWMutex.Lock (m : RWMutex) : RWMutex := { m with writer := true }

/-- `Unlock()`. -/
def RWMutex.Unlock (m : RWMutex) : RWMutex := { m with writer := false }

/-- Whether `Lock()` is granted in this state: nobody reads and nobody writes. -/
def RWMutex.canLock (m : RWMutex) : Bool := m.readers == 0 && !m.writer

/-- Whether `RLock()` is granted in this state: nobody writes. -/
def RWMutex.canRLock (m : RWMutex) : Bool := !m.writer

end sync

/-- The key table with its lock. `entries a = none` when the map has no binding for
`a`. -/
structure handlerDB where
  RWMutex : sync.RWMutex
  entries : DevAddr → Option (List handlerEntry)

/-- Map read `db.entries[devAddr]`: the nil slice when the key is absent. -/
def handlerDB.lookup (db : handlerDB) (devAddr : DevAddr) : List handlerEntry :=
  (db.entries devAddr).getD []

/-- Constructor `newHandlerDB`: an empty map behind a free lock. -/
def newHandlerDB : handlerDB :=
  { RWMutex := { readers := 0, writer := false }, entries := fun _ => none }

/-- The map write of line 43, `db.entries[devAddr] = append(db.entries[devAddr], entry)`. -/
def handlerDB.appendEntry (db : handlerDB) (devAddr : DevAddr) (entry : handlerEntry) :
    handlerDB :=
  { db with entries := fun a =>
      if a = devAddr then some (db.lookup devAddr ++ [entry]) else db.entries a }

/-- Method `store`. `db.Lock()` is granted only in a state where nobody reads and nobody
writes; in any other state the call waits there and, nothing else running that would
release the lock, never returns: the outcome is `none`. Once the lock is granted the
entry is appended under it, the lock is released and the call returns the table with
the nil error. -/
def handlerDB.store (db : handlerDB) (devAddr : DevAddr) (entry : handlerEntry) :
    Option (handlerDB × Option Error) :=
  if db.RWMutex.canLock then
    let locked : handlerDB := { db with RWMutex := db.RWMutex.Lock }
    let written := locked.appendEntry devAddr entry
    some ({ written with RWMutex := written.RWMutex.Unlock }, none)
  else
    none

/-- Map read `partitions[k]` on the local map of `partition`. -/
def mapGet : List (EUI64 × handlerPartition) → EUI64 → Option handlerPartition
  | [], _ => none
  | (k', v) :: m, k => if k' = k then some v else mapGet m k

/-- Map write `partitions[k] = v`: replaces the binding of `k` or adds one. -/
def mapSet : List (EUI64 × handlerPartition) → EUI64 → handlerPartition →
    List (EUI64 × handlerPartition)
  | [], k, v => [(k, v)]
  | (k', v') :: m, k, v => if k' = k then (k, v) :: m else (k', v') :: mapSet m k v

/-- The slice `partitions[k].Packets`: nil when `k` has no binding (zero value). -/
def mapPackets (m : List (EUI64 × handlerPartition)) (k : EUI64) : List Packet :=
  ((mapGet m k).map (fun p => p.Packets)).getD []

/-- An enumeration order for `range` over a map: some rearrangement of its values. -/
structure MapOrder where
  enum : List handlerPartition → List handlerPartition
  perm : ∀ l, (enum l).Perm l

/-- The enumeration that follows the order of first insertion. -/
def MapOrder.insertion : MapOrder := { enum := fun l => l, perm := fun l => List.Perm.refl l }

/-- Record of one call `macPayload.DecryptFRMPayload(key)` made by `partition`: the
candidate entry, the key passed, the payload object as it stood before the call and
whether the call returned no error. -/
structure DecryptCall where
  entry : handlerEntry
  key : AES128Key
  payload : MACPayload
  ok : Bool
deriving DecidableEq

/-- Outcome of the inner loop over the entries of one address. -/
structure ScanResult where
  macPayload : MACPayload
  found : Option handlerEntry
  calls : List DecryptCall
deriving DecidableEq

/-- Inner loop of `partition` (lines 66-83): try the entries in order on the payload
object, stop at the first call that returns no error. -/
def scanEntries (D : Decrypt) (macPayload : MACPayload) : List handlerEntry → ScanResult
  | [] => { macPayload := macPayload, found := none, calls := [] }
  | entry :: rest =>
    let key := if macPayload.FPort = 0 then entry.NwkSKey else entry.AppSKey
    let r := D key macPayload
    let call : DecryptCall := { entry := entry, key := key, payload := macPayload, ok := r.2 }
    if r.2 then
      { macPayload := r.1, found := some entry, calls := [call] }
    else
      let s := scanEntries D r.1 rest
      { macPayload := s.macPayload, found := s.found, calls := call :: s.calls }

/-- Local state of the outer loop: the map under construction, the frames visited so
far as they are left in memory, and the calls made for each of them. -/
structure LoopState where
  partitions : List (EUI64 × handlerPartition)
  packets : List Packet
  calls : List (List DecryptCall)
deriving DecidableEq

/-- Body of the outer loop for a frame that has an address and a MAC payload
(lines 65-83). -/
def serve (D : Decrypt) (db : handlerDB) (s : LoopState) (packet : Packet)
    (devAddr : DevAddr) (macPayload : MACPayload) : LoopState :=
  let r := scanEntries D macPayload (db.lookup devAddr)
  let packet' : Packet := { packet with Payload := { MACPayload := Payload.mac r.macPayload } }
  let partitions :=
    match r.found with
    | none => s.partitions
    | some entry =>
      mapSet s.partitions entry.AppEUI
        { handlerEntry := entry, Packets := mapPackets s.partitions entry.AppEUI ++ [packet'] }
  { partitions := partitions, packets := s.packets ++ [packet'], calls := s.calls ++ [r.calls] }

/-- Outer loop of `partition` (lines 54-84). The flag tells whether the loop ran to its
end; it is `false` when a `return nil, ErrInvalidPacket` was taken, in which case the
frames not yet visited are left as they were. -/
def partitionLoop (D : Decrypt) (db : handlerDB) : List Packet → LoopState → Bool × LoopState
  | [], s => (true, s)
  | packet :: rest, s =>
    match packet.DevAddr with
    | none => (false, { s with packets := s.packets ++ packet :: rest })
    | some devAddr =>
      match packet.Payload.MACPayload with
      | Payload.other => (false, { s with packets := s.packets ++ packet :: rest })
      | Payload.mac macPayload => partitionLoop D db rest (serve D db s packet devAddr macPayload)

/-- What a call of `partition` leaves behind: the two returned values (`res` is `[]`
for the nil slice), the key table with its lock, the batch as it now stands in memory,
and, frame by frame, the decrypt calls that were made. -/
structure Outcome where
  res : List handlerPartition
  err : Option Error
  db : handlerDB
  packets : List Packet
  calls : List (List DecryptCall)

/-- Method `partition`. -/
def handlerDB.partition (D : Decrypt) (ord : MapOrder) (db : handlerDB)
    (packets : List Packet) : Outcome :=
  let locked : handlerDB := { db with RWMutex := db.RWMutex.RLock }
  let r := partitionLoop D locked packets { partitions := [], packets := [], calls := [] }
  if r.1 then
    { res := ord.enum (r.2.partitions.map Prod.snd),
      err := none,
      db := { locked with RWMutex := locked.RWMutex.RUnlock },
      packets := r.2.packets,
      calls := r.2.calls }
  else
    { res := [],
      err := some Error.ErrInvalidPacket,
      db := locked,
      packets := r.2.packets,
      calls := r.2.calls }

/-! ## Notions used to state the properties -/

/-- A frame that passes both checks at the head of the loop body: the address accessor
succeeds and the payload is a MAC payload. -/
def wellFormed (p : Packet) : Bool :=
  p.DevAddr.isSome &&
    (match p.Payload.MACPayload with
     | Payload.mac _ => true
     | Payload.other => false)

/-- The key of a tuple that goes with a payload: the network key on port 0, the
application key on every other port. -/
def portKey (entry : handlerEntry) (m : MACPayload) : AES128Key :=
  if m.FPort = 0 then entry.NwkSKey else entry.AppSKey

/-- The payload object once decrypt has been called on it for each of the given tuples
in turn. -/
def payloadAfter (D : Decrypt) : MACPayload → List handlerEntry → MACPayload
  | m, [] => m
  | m, e :: es => payloadAfter D (D (portKey e m) m).1 es

/-- Decrypt reports a failure for each of the given tuples when they are tried in turn
on the payload object. -/
def allRejected (D : Decrypt) : MACPayload → List handlerEntry → Bool
  | _, [] => true
  | m, e :: es => !(D (portKey e m) m).2 && allRejected D (D (portKey e m) m).1 es

/-- Tuple `e` wins frame `f`: `e` is stored under the address of `f`, decrypt reports a
failure for every tuple stored before it, tried in turn, and reports success for `e`. -/
def Wins (D : Decrypt) (db : handlerDB) (f : Packet) (e : handlerEntry) : Prop :=
  ∃ a m pre post, f.DevAddr = some a ∧ f.Payload.MACPayload = Payload.mac m ∧
    db.lookup a = pre ++ e :: post ∧ allRejected D m pre = true ∧
    (D (portKey e (payloadAfter D m pre)) (payloadAfter D m pre)).2 = true

/-- The frame `f` with the payload that the winning call of decrypt leaves in it, for a
winning tuple `e` stored after the tuples `pre`. -/
def decryptedBy (D : Decrypt) (f : Packet) (m : MACPayload) (pre : List handlerEntry)
    (e : handlerEntry) : Packet :=
  { f with Payload :=
      { MACPayload := Payload.mac (D (portKey e (payloadAfter D m pre)) (payloadAfter D m pre)).1 } }

/-- Some call made for the frame reports success: it is not the case that decrypt
reports a failure for every tuple stored under its address when they are tried in turn,
each on the payload as the call before it left it. -/
def owned (D : Decrypt) (db : handlerDB) (f : Packet) : Bool :=
  match f.DevAddr, f.Payload.MACPayload with
  | some a, Payload.mac m => !allRejected D m (db.lookup a)
  | _, _ => false

/-- Some tuple stored under the address of the frame decrypts the frame: decrypt, called
on the payload of the frame with the port-selected key of the tuple, reports success. -/
def decryptable (D : Decrypt) (db : handlerDB) (f : Packet) : Bool :=
  match f.DevAddr, f.Payload.MACPayload with
  | some a, Payload.mac m => (db.lookup a).any (fun t => (D (portKey t m) m).2)
  | _, _ => false

/-- The frame list of an AppEUI in a returned list of partitions, nil when no partition
of the list has that AppEUI. -/
def framesOf (res : List handlerPartition) (k : EUI64) : List Packet :=
  match res.find? (fun p => decide (p.handlerEntry.AppEUI = k)) with
  | some p => p.Packets
  | none => []

/-! ## The outer loop, frame by frame: what the body does for one frame -/

/-- The frame as the loop body leaves it in memory. -/
def visited (D : Decrypt) (db : handlerDB) (packet : Packet) : Packet :=
  match packet.DevAddr, packet.Payload.MACPayload with
  | some a, Payload.mac m =>
    { packet with Payload := { MACPayload := Payload.mac (scanEntries D m (db.lookup a)).macPayload } }
  | _, _ => packet

/-- The entry at which the inner loop stops for the frame, with the frame as it is then
appended to the partition of that entry. -/
def hitOf (D : Decrypt) (db : handlerDB) (packet : Packet) : Option (handlerEntry × Packet) :=
  match packet.DevAddr, packet.Payload.MACPayload with
  | some a, Payload.mac m =>
    (scanEntries D m (db.lookup a)).found.map (fun e => (e, visited D db packet))
  | _, _ => none

/-- The decrypt calls made for the frame. -/
def callsOf (D : Decrypt) (db : handlerDB) (packet : Packet) : List DecryptCall :=
  match packet.DevAddr, packet.Payload.MACPayload with
  | some a, Payload.mac m => (scanEntries D m (db.lookup a)).calls
  | _, _ => []

/-- The map write made for a frame that found its entry. -/
def addHit (m : List (EUI64 × handlerPartition)) (h : handlerEntry × Packet) :
    List (EUI64 × handlerPartition) :=
  mapSet m h.1.AppEUI { handlerEntry := h.1, Packets := mapPackets m h.1.AppEUI ++ [h.2] }

/-! ## Concrete inputs -/

/-- A small in-place cipher for the examples: every byte of the frame payload is XORed
with the key, and the call reports success when the first byte it leaves is below 8. -/
def xorDecrypt : Decrypt := fun key m =>
  let bytes := m.FRMPayload.map (fun b => b ^^^ key)
  ({ m with FRMPayload := bytes },
    match bytes with
    | b :: _ => decide (b < 8)
    | [] => false)

/-- Tuple of application 7 for address 1. -/
def tupleA : handlerEntry := { AppEUI := 7, NwkSKey := 1, AppSKey := 2, DevAddr := 1 }

/-- Tuple of application 8 for address 1. -/
def tupleB : handlerEntry := { AppEUI := 8, NwkSKey := 8, AppSKey := 16, DevAddr := 1 }

/-- Tuple of application 7 for a second device, at address 2. -/
def tupleC : handlerEntry := { AppEUI := 7, NwkSKey := 32, AppSKey := 64, DevAddr := 2 }

/-- Key table after `store(1, tupleA)`, `store(1, tupleB)`, `store(2, tupleC)` on the
empty table. -/
def tableABC : handlerDB :=
  ((newHandlerDB.appendEntry 1 tupleA).appendEntry 1 tupleB).appendEntry 2 tupleC

/-- Payload of `frameB`. -/
def payloadB : MACPayload := { FPort := 0, FRMPayload := [8, 20] }

/-- Frame of address 1 on port 0 that `tupleA` rejects and `tupleB` then accepts. -/
def frameB : Packet :=
  { DevAddr := some 1, Metadata := 100, Payload := { MACPayload := Payload.mac payloadB } }

/-- Frame of address 1 on port 0 that `tupleA` accepts. -/
def frameA : Packet :=
  { DevAddr := some 1, Metadata := 101,
    Payload := { MACPayload := Payload.mac { FPort := 0, FRMPayload := [1, 4] } } }

/-- Frame of address 2 on port 3 that `tupleC` accepts. -/
def frameC : Packet :=
  { DevAddr := some 2, Metadata := 102,
    Payload := { MACPayload := Payload.mac { FPort := 3, FRMPayload := [64, 66] } } }

/-- Payload of `frameU`. -/
def payloadU : MACPayload := { FPort := 1, FRMPayload := [1] }

/-- Frame of address 3, under which nothing is stored. -/
def frameU : Packet :=
  { DevAddr := some 3, Metadata := 103, Payload := { MACPayload := Payload.mac payloadU } }

/-- Frame without an address and without a MAC payload. -/
def frameBad : Packet :=
  { DevAddr := none, Metadata := 104, Payload := { MACPayload := Payload.other } }

/-- Tuple of application 9 for address 1; like `tupleA` it accepts `frameA`. -/
def tupleD : handlerEntry := { AppEUI := 9, NwkSKey := 2, AppSKey := 3, DevAddr := 1 }

/-- Key table after `store(1, tupleB)` on the empty table. -/
def tableB : handlerDB := newHandlerDB.appendEntry 1 tupleB

/-- Tuple of application 5 for address 4; it rejects `frameQ`. -/
def tupleP : handlerEntry := { AppEUI := 5, NwkSKey := 16, AppSKey := 48, DevAddr := 4 }

/-- Tuple of application 6 for address 4; it decrypts `frameQ`. -/
def tupleQ : handlerEntry := { AppEUI := 6, NwkSKey := 8, AppSKey := 40, DevAddr := 4 }

/-- Tuple of application 12 for address 4; it rejects `frameQ`. -/
def tupleR : handlerEntry := { AppEUI := 12, NwkSKey := 17, AppSKey := 49, DevAddr := 4 }

/-- Tuple of application 10 for address 4; its network key rejects `frameQ`, its
application key would decrypt it. -/
def tupleS : handlerEntry := { AppEUI := 10, NwkSKey := 24, AppSKey := 8, DevAddr := 4 }

/-- Tuple of application 11 for address 4; both its keys reject `frameQ`. -/
def tupleT : handlerEntry := { AppEUI := 11, NwkSKey := 24, AppSKey := 56, DevAddr := 4 }

/-- Payload of `frameQ`. -/
def payloadQ : MACPayload := { FPort := 0, FRMPayload := [8] }

/-- Frame of address 4 on port 0. -/
def frameQ : Packet :=
  { DevAddr := some 4, Metadata := 105, Payload := { MACPayload := Payload.mac payloadQ } }

/-- Key table after `store(4, tupleP)`, `store(4, tupleQ)`, `store(4, tupleR)` on the
empty table. -/
def tablePQR : handlerDB :=
  ((newHandlerDB.appendEntry 4 tupleP).appendEntry 4 tupleQ).appendEntry 4 tupleR

/-- Key table after `store(4, tupleP)`, `store(4, tupleQ)` on the empty table. -/
def tablePQ : handlerDB := (newHandlerDB.appendEntry 4 tupleP).appendEntry 4 tupleQ

/-- Key table after `store(4, tupleP)`, `store(4, tupleS)` on the empty table. -/
def tablePS : handlerDB := (newHandlerDB.appendEntry 4 tupleP).appendEntry 4 tupleS

/-- Key table after `store(4, tupleP)`, `store(4, tupleT)` on the empty table. -/
def tablePT : handlerDB := (newHandlerDB.appendEntry 4 tupleP).appendEntry 4 tupleT

/-- Payload of `frameA`. -/
def payloadA : MACPayload := { FPort := 0, FRMPayload := [1, 4] }

/-- The one partition that `[frameA, frameC]` yields on `tableABC`: both frames, each
with its payload decrypted, under `tupleC`. -/
def groupAC : handlerPartition :=
  { handlerEntry := tupleC,
    Packets := [{ frameA with Payload :=
                   { MACPayload := Payload.mac { FPort := 0, FRMPayload := [0, 5] } } },
                { frameC with Payload :=
                   { MACPayload := Payload.mac { FPort := 3, FRMPayload := [0, 2] } } }] }

/-! ## The local map: reads after writes, keys -/

theorem mapGet_mapSet (m : List (EUI64 × handlerPartition)) (k k' : EUI64)
    (v : handlerPartition) :
    mapGet (mapSet m k v) k' = if k = k' then some v else mapGet m k' := by
  induction m with
  | nil => simp [mapSet, mapGet]
  | cons kv m ih =>
    obtain ⟨k0, v0⟩ := kv
    by_cases h0 : k0 = k
    · subst h0
      by_cases h1 : k0 = k' <;> simp [mapSet, mapGet, h1]
    · by_cases h1 : k0 = k'
      · subst h1
        have h2 : ¬ k = k0 := fun h => h0 h.symm
        simp [mapSet, mapGet, h0, h2]
      · simp [mapSet, mapGet, h0, h1, ih]

theorem mapSet_keys (m : List (EUI64 × handlerPartition)) (k : EUI64) (v : handlerPartition) :
    (mapSet m k v).map Prod.fst =
      if k ∈ m.map Prod.fst then m.map Prod.fst else m.map Prod.fst ++ [k] := by
  induction m with
  | nil => simp [mapSet]
  | cons kv m ih =>
    obtain ⟨k0, v0⟩ := kv
    by_cases h0 : k0 = k
    · subst h0
      simp [mapSet]
    · have h2 : ¬ k = k0 := fun h => h0 h.symm
      by_cases h1 : k ∈ m.map Prod.fst
      · simp only [mapSet, h0, if_false, List.map_cons, ih, h1, if_true, List.mem_cons, or_true]
      · simp only [mapSet, h0, if_false, List.map_cons, ih, h1, List.mem_cons, h2, or_self,
          List.cons_append]

theorem mapSet_nodup (m : List (EUI64 × handlerPartition)) (k : EUI64) (v : handlerPartition)
    (h : (m.map Prod.fst).Nodup) : ((mapSet m k v).map Prod.fst).Nodup := by
  rw [mapSet_keys]
  by_cases h1 : k ∈ m.map Prod.fst
  · simpa [h1] using h
  · simp only [h1, if_false]
    exact List.Nodup.append h (List.nodup_singleton k) (by simpa using h1)

theorem mapGet_of_mem (m : List (EUI64 × handlerPartition)) (k : EUI64) (v : handlerPartition)
    (hnd : (m.map Prod.fst).Nodup) (h : (k, v) ∈ m) : mapGet m k = some v := by
  induction m with
  | nil => simp at h
  | cons kv m ih =>
    obtain ⟨k0, v0⟩ := kv
    simp only [List.map_cons, List.nodup_cons] at hnd
    rcases List.mem_cons.1 h with h1 | h1
    · cases h1
      simp [mapGet]
    · have hne : ¬ k0 = k := by
        intro hk
        subst hk
        exact hnd.1 (List.mem_map.2 ⟨(k0, v), h1, rfl⟩)
      simp only [mapGet, hne, if_false]
      exact ih hnd.2 h1

theorem mem_of_mapGet (m : List (EUI64 × handlerPartition)) (k : EUI64) (v : handlerPartition)
    (h : mapGet m k = some v) : (k, v) ∈ m := by
  induction m with
  | nil => simp [mapGet] at h
  | cons kv m ih =>
    obtain ⟨k0, v0⟩ := kv
    by_cases h0 : k0 = k
    · subst h0
      simp only [mapGet, if_true, Option.some.injEq] at h
      subst h
      exact List.mem_cons_self _ _
    · simp only [mapGet, h0, if_false] at h
      exact List.mem_cons_of_mem _ (ih h)

/-! ## The inner loop -/

theorem scanEntries_rejected (D : Decrypt) (rest : List handlerEntry) :
    ∀ (pre : List handlerEntry) (m : MACPayload), allRejected D m pre = true →
      (scanEntries D m (pre ++ rest)).found = (scanEntries D (payloadAfter D m pre) rest).found ∧
      (scanEntries D m (pre ++ rest)).macPayload =
        (scanEntries D (payloadAfter D m pre) rest).macPayload ∧
      (scanEntries D m (pre ++ rest)).calls.map (fun c => c.entry) =
        pre ++ (scanEntries D (payloadAfter D m pre) rest).calls.map (fun c => c.entry) := by
  intro pre
  induction pre with
  | nil => intro m _; simp [payloadAfter]
  | cons e pre ih =>
    intro m h
    simp only [allRejected, Bool.and_eq_true, Bool.not_eq_true'] at h
    have h1 : (D (if m.FPort = 0 then e.NwkSKey else e.AppSKey) m).2 = false := h.1
    have ih' := ih (D (portKey e m) m).1 h.2
    simp only [portKey] at ih'
    simp only [List.cons_append, scanEntries, h1, payloadAfter, portKey, Bool.false_eq_true,
      if_false, List.map_cons, List.append_eq]
    exact ⟨ih'.1, ih'.2.1, by rw [ih'.2.2]⟩

theorem scanEntries_hit (D : Decrypt) (m : MACPayload) (pre post : List handlerEntry)
    (e : handlerEntry) (hrej : allRejected D m pre = true)
    (hok : (D (portKey e (payloadAfter D m pre)) (payloadAfter D m pre)).2 = true) :
    (scanEntries D m (pre ++ e :: post)).found = some e ∧
    (scanEntries D m (pre ++ e :: post)).macPayload =
      (D (portKey e (payloadAfter D m pre)) (payloadAfter D m pre)).1 ∧
    (scanEntries D m (pre ++ e :: post)).calls.map (fun c => c.entry) = pre ++ [e] := by
  obtain ⟨h1, h2, h3⟩ := scanEntries_rejected D (e :: post) pre m hrej
  simp only [portKey] at hok
  rw [h1, h2, h3]
  simp [scanEntries, hok, portKey]

theorem scanEntries_found (D : Decrypt) :
    ∀ (es : List handlerEntry) (m : MACPayload) (e : handlerEntry),
      (scanEntries D m es).found = some e →
      ∃ pre post, es = pre ++ e :: post ∧ allRejected D m pre = true ∧
        (D (portKey e (payloadAfter D m pre)) (payloadAfter D m pre)).2 = true := by
  intro es
  induction es with
  | nil => intro m e h; simp [scanEntries] at h
  | cons e0 es ih =>
    intro m e h
    by_cases h1 : (D (if m.FPort = 0 then e0.NwkSKey else e0.AppSKey) m).2 = true
    · simp only [scanEntries, h1, if_true, Option.some.injEq] at h
      subst h
      exact ⟨[], es, rfl, rfl, by simpa [payloadAfter, portKey] using h1⟩
    · simp only [scanEntries, h1, if_false] at h
      obtain ⟨pre, post, h2, h3, h4⟩ := ih _ e h
      refine ⟨e0 :: pre, post, by rw [h2]; rfl, ?_, ?_⟩
      · simp only [allRejected, portKey, Bool.and_eq_true, Bool.not_eq_true']
        exact ⟨by simpa using h1, by simpa [portKey] using h3⟩
      · simpa [payloadAfter, portKey] using h4

theorem scanEntries_none (D : Decrypt) :
    ∀ (es : List handlerEntry) (m : MACPayload),
      ((scanEntries D m es).found = none ↔ allRejected D m es = true) := by
  intro es
  induction es with
  | nil => intro m; simp [scanEntries, allRejected]
  | cons e0 es ih =>
    intro m
    by_cases h1 : (D (if m.FPort = 0 then e0.NwkSKey else e0.AppSKey) m).2 = true
    · simp [scanEntries, allRejected, portKey, h1]
    · have h2 : (D (if m.FPort = 0 then e0.NwkSKey else e0.AppSKey) m).2 = false := by
        simpa using h1
      simp only [scanEntries, h2, Bool.false_eq_true, if_false, allRejected, portKey,
        Bool.not_false, Bool.true_and]
      exact ih _

theorem scanEntries_calls (D : Decrypt) :
    ∀ (es : List handlerEntry) (m : MACPayload) (c : DecryptCall),
      c ∈ (scanEntries D m es).calls →
      c.key = (if c.payload.FPort = 0 then c.entry.NwkSKey else c.entry.AppSKey) ∧
        c.ok = (D c.key c.payload).2 ∧ c.entry ∈ es := by
  intro es
  induction es with
  | nil => intro m c h; simp [scanEntries] at h
  | cons e0 es ih =>
    intro m c h
    by_cases h1 : (D (if m.FPort = 0 then e0.NwkSKey else e0.AppSKey) m).2 = true
    · simp only [scanEntries, h1, if_true, List.mem_singleton] at h
      subst h
      simp [h1]
    · have h1' : (D (if m.FPort = 0 then e0.NwkSKey else e0.AppSKey) m).2 = false := by
        simpa using h1
      simp only [scanEntries, h1', Bool.false_eq_true, if_false, List.mem_cons] at h
      rcases h with h | h
      · subst h
        simp [h1']
      · obtain ⟨h2, h3, h4⟩ := ih _ c h
        exact ⟨h2, h3, List.mem_cons_of_mem _ h4⟩

/-! ## The outer loop -/

theorem wellFormed_iff (p : Packet) :
    wellFormed p = true ↔ ∃ a m, p.DevAddr = some a ∧ p.Payload.MACPayload = Payload.mac m := by
  obtain ⟨d, md, ⟨pl⟩⟩ := p
  cases d <;> cases pl <;> simp [wellFormed]

theorem partitionLoop_wf (D : Decrypt) (db : handlerDB) :
    ∀ (packets : List Packet) (s : LoopState), (∀ p ∈ packets, wellFormed p = true) →
      partitionLoop D db packets s =
        (true, { partitions := (packets.filterMap (hitOf D db)).foldl addHit s.partitions,
                 packets := s.packets ++ packets.map (visited D db),
                 calls := s.calls ++ packets.map (callsOf D db) }) := by
  intro packets
  induction packets with
  | nil => intro s _; simp [partitionLoop]
  | cons p ps ih =>
    intro s h
    obtain ⟨a, m, h1, h2⟩ := (wellFormed_iff p).1 (h p (List.mem_cons_self _ _))
    have ih' := ih (serve D db s p a m) (fun q hq => h q (List.mem_cons_of_mem _ hq))
    simp only [partitionLoop, h1, h2, ih']
    cases hf : (scanEntries D m (db.lookup a)).found with
    | none => simp [serve, hitOf, visited, callsOf, h1, h2, hf]
    | some e => simp [serve, hitOf, visited, callsOf, h1, h2, hf, addHit]

theorem partitionLoop_malformed (D : Decrypt) (db : handlerDB) :
    ∀ (packets : List Packet) (s : LoopState), (∃ p ∈ packets, wellFormed p = false) →
      (partitionLoop D db packets s).1 = false := by
  intro packets
  induction packets with
  | nil => intro s h; simp at h
  | cons p ps ih =>
    intro s h
    obtain ⟨d, md, ⟨pl⟩⟩ := p
    cases d with
    | none => simp [partitionLoop]
    | some a =>
      cases pl with
      | other => simp [partitionLoop]
      | mac m =>
        simp only [partitionLoop]
        apply ih
        obtain ⟨q, hq, hq'⟩ := h
        rcases List.mem_cons.1 hq with h1 | h1
        · subst h1
          simp [wellFormed] at hq'
        · exact ⟨q, h1, hq'⟩

/-! ## The groups built by the loop -/

theorem addHit_nodup (hs : List (handlerEntry × Packet)) :
    ∀ m : List (EUI64 × handlerPartition), (m.map Prod.fst).Nodup →
      ((hs.foldl addHit m).map Prod.fst).Nodup := by
  induction hs with
  | nil => intro m h; simpa using h
  | cons h hs ih =>
    intro m hm
    simp only [List.foldl_cons]
    exact ih _ (mapSet_nodup m _ _ hm)

theorem mapGet_groups (a : EUI64) (hs : List (handlerEntry × Packet)) :
    mapGet (hs.foldl addHit []) a =
      ((hs.filter (fun h => decide (h.1.AppEUI = a))).getLast?).map
        (fun h => { handlerEntry := h.1,
                    Packets := (hs.filter (fun h => decide (h.1.AppEUI = a))).map Prod.snd }) := by
  induction hs using List.reverseRecOn with
  | nil => simp [mapGet]
  | append_singleton hs h ih =>
    simp only [List.foldl_append, List.foldl_cons, List.foldl_nil, addHit, mapGet_mapSet]
    by_cases hk : h.1.AppEUI = a
    · subst hk
      have hp : mapPackets (List.foldl addHit [] hs) h.1.AppEUI =
          (hs.filter (fun x => decide (x.1.AppEUI = h.1.AppEUI))).map Prod.snd := by
        rw [mapPackets, ih]
        cases hl : (hs.filter (fun x => decide (x.1.AppEUI = h.1.AppEUI))).getLast? with
        | none =>
          have : hs.filter (fun x => decide (x.1.AppEUI = h.1.AppEUI)) = [] := by
            simpa using hl
          simp [this]
        | some x => simp
      simp [hp, List.filter_append, List.filter_cons, List.getLast?_append]
    · simp [hk, ih, List.filter_append, List.filter_cons]

theorem group_of_mapGet (a : EUI64) (hs : List (handlerEntry × Packet)) (part : handlerPartition)
    (h : mapGet (hs.foldl addHit []) a = some part) :
    part.handlerEntry.AppEUI = a ∧
      part.Packets = (hs.filter (fun h => decide (h.1.AppEUI = a))).map Prod.snd ∧
      ∃ l₁ last l₂, hs = l₁ ++ last :: l₂ ∧ last.1 = part.handlerEntry ∧
        ∀ g ∈ l₂, g.1.AppEUI ≠ a := by
  rw [mapGet_groups] at h
  cases hl : (hs.filter (fun h => decide (h.1.AppEUI = a))).getLast? with
  | none => simp [hl] at h
  | some x =>
    simp only [hl, Option.map_some', Option.some.injEq] at h
    subst h
    have hx : x ∈ hs.filter (fun h => decide (h.1.AppEUI = a)) := List.mem_of_getLast?_eq_some hl
    have hxa : x.1.AppEUI = a := by simpa using (List.mem_filter.1 hx).2
    refine ⟨hxa, rfl, ?_⟩
    obtain ⟨ini, hini⟩ := List.getLast?_eq_some_iff.1 hl
    obtain ⟨l₁, l₂, h1, _, h3⟩ := List.filter_eq_append_iff.1 hini
    obtain ⟨m₁, m₂, h4, _, _, h7⟩ := List.filter_eq_cons_iff.1 h3
    refine ⟨l₁ ++ m₁, x, m₂, by rw [h1, h4, List.append_assoc], rfl, ?_⟩
    intro g hg hga
    have : g ∈ m₂.filter (fun h => decide (h.1.AppEUI = a)) :=
      List.mem_filter.2 ⟨hg, by simpa using hga⟩
    rw [h7] at this
    simp at this

theorem group_of_hit (hs : List (handlerEntry × Packet)) (h : handlerEntry × Packet)
    (hmem : h ∈ hs) :
    ∃ part, mapGet (hs.foldl addHit []) h.1.AppEUI = some part ∧
      part.handlerEntry.AppEUI = h.1.AppEUI ∧ h.2 ∈ part.Packets := by
  have hf : h ∈ hs.filter (fun x => decide (x.1.AppEUI = h.1.AppEUI)) :=
    List.mem_filter.2 ⟨hmem, by simp⟩
  cases hl : (hs.filter (fun x => decide (x.1.AppEUI = h.1.AppEUI))).getLast? with
  | none =>
    rw [List.getLast?_eq_none_iff] at hl
    rw [hl] at hf
    simp at hf
  | some x =>
    have hg : mapGet (hs.foldl addHit []) h.1.AppEUI = some
        { handlerEntry := x.1,
          Packets := (hs.filter (fun x => decide (x.1.AppEUI = h.1.AppEUI))).map Prod.snd } := by
      rw [mapGet_groups, hl]
      rfl
    refine ⟨_, hg, (group_of_mapGet _ _ _ hg).1, ?_⟩
    exact List.mem_map.2 ⟨h, hf, rfl⟩

theorem groups_mem_iff (hs : List (handlerEntry × Packet)) (part : handlerPartition) :
    part ∈ (hs.foldl addHit []).map Prod.snd ↔
      ∃ a, mapGet (hs.foldl addHit []) a = some part := by
  have hnd : ((hs.foldl addHit []).map Prod.fst).Nodup := addHit_nodup hs [] (by simp)
  constructor
  · intro h
    obtain ⟨⟨k, v⟩, h1, h2⟩ := List.mem_map.1 h
    cases h2
    exact ⟨k, mapGet_of_mem _ _ _ hnd h1⟩
  · rintro ⟨a, h⟩
    exact List.mem_map.2 ⟨(a, part), mem_of_mapGet _ _ _ h, rfl⟩

theorem groups_keys (hs : List (handlerEntry × Packet)) :
    ((hs.foldl addHit []).map Prod.snd).map (fun p => p.handlerEntry.AppEUI) =
      (hs.foldl addHit []).map Prod.fst := by
  have hnd : ((hs.foldl addHit []).map Prod.fst).Nodup := addHit_nodup hs [] (by simp)
  rw [List.map_map]
  apply List.map_congr_left
  rintro ⟨k, v⟩ hkv
  exact (group_of_mapGet k hs v (mapGet_of_mem _ _ _ hnd hkv)).1

/-! ## The whole call on a batch of well-formed frames -/

theorem partition_wf (D : Decrypt) (ord : MapOrder) (db : handlerDB) (packets : List Packet)
    (h : ∀ p ∈ packets, wellFormed p = true) :
    (db.partition D ord packets).res =
        ord.enum (((packets.filterMap (hitOf D db)).foldl addHit []).map Prod.snd) ∧
      (db.partition D ord packets).err = none ∧
      (db.partition D ord packets).packets = packets.map (visited D db) ∧
      (db.partition D ord packets).calls = packets.map (callsOf D db) ∧
      (db.partition D ord packets).db.RWMutex = db.RWMutex.RLock.RUnlock := by
  have h1 := partitionLoop_wf D { db with RWMutex := db.RWMutex.RLock } packets
    { partitions := [], packets := [], calls := [] } h
  simp only [handlerDB.partition, h1, if_true, List.nil_append, true_and]
  exact ⟨rfl, rfl, rfl, trivial⟩

theorem partition_of_malformed (D : Decrypt) (ord : MapOrder) (db : handlerDB)
    (packets : List Packet) (h : ∃ p ∈ packets, wellFormed p = false) :
    (db.partition D ord packets).res = [] ∧
      (db.partition D ord packets).err = some Error.ErrInvalidPacket := by
  have h1 := partitionLoop_malformed D { db with RWMutex := db.RWMutex.RLock } packets
    { partitions := [], packets := [], calls := [] } h
  simp [handlerDB.partition, h1]

theorem hitOf_shape (D : Decrypt) (db : handlerDB) (f f' : Packet) (e : handlerEntry)
    (h : hitOf D db f = some (e, f')) :
    ∃ m', f' = { f with Payload := { MACPayload := Payload.mac m' } } := by
  obtain ⟨d, md, ⟨pl⟩⟩ := f
  cases d with
  | none => simp [hitOf] at h
  | some a =>
    cases pl with
    | other => simp [hitOf] at h
    | mac m =>
      simp only [hitOf, visited, Option.map_eq_some', Prod.mk.injEq] at h
      obtain ⟨e', _, _, h3⟩ := h
      exact ⟨_, h3.symm⟩

theorem partition_mem_res (D : Decrypt) (ord : MapOrder) (db : handlerDB) (packets : List Packet)
    (h : ∀ p ∈ packets, wellFormed p = true) (part : handlerPartition) :
    part ∈ (db.partition D ord packets).res ↔
      ∃ a, mapGet ((packets.filterMap (hitOf D db)).foldl addHit []) a = some part := by
  rw [(partition_wf D ord db packets h).1, (ord.perm _).mem_iff, groups_mem_iff]

theorem hitOf_of_wins (D : Decrypt) (db : handlerDB) (f : Packet) (a : DevAddr) (m : MACPayload)
    (pre post : List handlerEntry) (e : handlerEntry)
    (ha : f.DevAddr = some a) (hm : f.Payload.MACPayload = Payload.mac m)
    (hseq : db.lookup a = pre ++ e :: post) (hrej : allRejected D m pre = true)
    (hok : (D (portKey e (payloadAfter D m pre)) (payloadAfter D m pre)).2 = true) :
    hitOf D db f = some (e, decryptedBy D f m pre e) ∧
      (callsOf D db f).map (fun c => c.entry) = pre ++ [e] := by
  obtain ⟨h1, h2, h3⟩ := scanEntries_hit D m pre post e hrej hok
  simp only [hitOf, visited, callsOf, ha, hm, hseq, h1, h2, h3, Option.map_some', decryptedBy,
    and_self]

theorem wins_of_hitOf (D : Decrypt) (db : handlerDB) (f f' : Packet) (e : handlerEntry)
    (h : hitOf D db f = some (e, f')) :
    Wins D db f e ∧ f'.DevAddr = f.DevAddr ∧ f'.Metadata = f.Metadata := by
  obtain ⟨d, md, ⟨pl⟩⟩ := f
  cases d with
  | none => simp [hitOf] at h
  | some a =>
    cases pl with
    | other => simp [hitOf] at h
    | mac m =>
      simp only [hitOf, visited, Option.map_eq_some', Prod.mk.injEq] at h
      obtain ⟨e', h1, h2, h3⟩ := h
      subst h2
      subst h3
      obtain ⟨pre, post, h4, h5, h6⟩ := scanEntries_found D _ m e' h1
      exact ⟨⟨a, m, pre, post, rfl, rfl, h4, h5, h6⟩, rfl, rfl⟩

theorem hitOf_of_Wins (D : Decrypt) (db : handlerDB) (f : Packet) (e : handlerEntry)
    (h : Wins D db f e) : ∃ f', hitOf D db f = some (e, f') := by
  obtain ⟨a, m, pre, post, ha, hm, hseq, hrej, hok⟩ := h
  exact ⟨_, (hitOf_of_wins D db f a m pre post e ha hm hseq hrej hok).1⟩

theorem hitOf_none (D : Decrypt) (db : handlerDB) (f : Packet) (a : DevAddr) (m : MACPayload)
    (ha : f.DevAddr = some a) (hm : f.Payload.MACPayload = Payload.mac m)
    (hrej : allRejected D m (db.lookup a) = true) : hitOf D db f = none := by
  have := (scanEntries_none D (db.lookup a) m).2 hrej
  simp [hitOf, ha, hm, this]

theorem partitionLoop_calls (D : Decrypt) (db : handlerDB) :
    ∀ (packets : List Packet) (s : LoopState) (cs : List DecryptCall),
      cs ∈ (partitionLoop D db packets s).2.calls →
      cs ∈ s.calls ∨ ∃ m es, cs = (scanEntries D m es).calls := by
  intro packets
  induction packets with
  | nil => intro s cs h; exact Or.inl h
  | cons p ps ih =>
    intro s cs h
    obtain ⟨d, md, ⟨pl⟩⟩ := p
    cases d with
    | none => exact Or.inl (by simpa [partitionLoop] using h)
    | some a =>
      cases pl with
      | other => exact Or.inl (by simpa [partitionLoop] using h)
      | mac m =>
        simp only [partitionLoop] at h
        rcases ih _ cs h with h1 | h1
        · simp only [serve, List.mem_append, List.mem_singleton] at h1
          rcases h1 with h2 | h2
          · exact Or.inl h2
          · exact Or.inr ⟨m, db.lookup a, h2⟩
        · exact Or.inr h1

theorem partition_calls (D : Decrypt) (ord : MapOrder) (db : handlerDB) (packets : List Packet)
    (cs : List DecryptCall) (h : cs ∈ (db.partition D ord packets).calls) :
    ∃ m es, cs = (scanEntries D m es).calls := by
  have h1 : cs ∈ (partitionLoop D { db with RWMutex := db.RWMutex.RLock } packets
      { partitions := [], packets := [], calls := [] }).2.calls := by
    cases hr : (partitionLoop D { db with RWMutex := db.RWMutex.RLock } packets
      { partitions := [], packets := [], calls := [] }).1 <;>
      simpa [handlerDB.partition, hr] using h
  rcases partitionLoop_calls D _ packets _ cs h1 with h2 | h2
  · simp at h2
  · exact h2

theorem hits_order (D : Decrypt) (db : handlerDB) (k : EUI64) :
    ∀ packets : List Packet, ∃ sub, sub.Sublist packets ∧
      List.Forall₂
        (fun inp out => (∃ m', out = { inp with Payload := { MACPayload := Payload.mac m' } }) ∧
          ∃ e, Wins D db inp e ∧ e.AppEUI = k)
        sub
        (((packets.filterMap (hitOf D db)).filter (fun h => decide (h.1.AppEUI = k))).map
          Prod.snd) := by
  intro packets
  induction packets with
  | nil => exact ⟨[], List.Sublist.slnil, by simp⟩
  | cons p ps ih =>
    obtain ⟨sub, h1, h2⟩ := ih
    cases hp : hitOf D db p with
    | none =>
      refine ⟨sub, List.Sublist.cons _ h1, ?_⟩
      simpa [List.filterMap_cons, hp] using h2
    | some h =>
      obtain ⟨e, p'⟩ := h
      by_cases hk : e.AppEUI = k
      · refine ⟨p :: sub, List.Sublist.cons₂ _ h1, ?_⟩
        simp only [List.filterMap_cons, hp, List.filter_cons, hk, decide_True, if_true,
          List.map_cons]
        exact List.Forall₂.cons
          ⟨hitOf_shape D db p p' e hp, e, (wins_of_hitOf D db p p' e hp).1, hk⟩ h2
      · refine ⟨sub, List.Sublist.cons _ h1, ?_⟩
        simpa [List.filterMap_cons, hp, List.filter_cons, hk] using h2

theorem partition_memory (D : Decrypt) (ord : MapOrder) (db : handlerDB)
    (packets : List Packet) :
    (db.partition D ord packets).packets =
        (partitionLoop D { db with RWMutex := db.RWMutex.RLock } packets
          { partitions := [], packets := [], calls := [] }).2.packets ∧
      (db.partition D ord packets).calls =
        (partitionLoop D { db with RWMutex := db.RWMutex.RLock } packets
          { partitions := [], packets := [], calls := [] }).2.calls := by
  cases hr : (partitionLoop D { db with RWMutex := db.RWMutex.RLock } packets
    { partitions := [], packets := [], calls := [] }).1 <;>
    simp [handlerDB.partition, hr]

theorem partitionLoop_congr (D : Decrypt) (db₁ db₂ : handlerDB) :
    ∀ (packets : List Packet) (s : LoopState),
      (∀ p ∈ packets, ∀ a, p.DevAddr = some a → db₁.lookup a = db₂.lookup a) →
      partitionLoop D db₁ packets s = partitionLoop D db₂ packets s := by
  intro packets
  induction packets with
  | nil => intro s _; rfl
  | cons p ps ih =>
    intro s h
    obtain ⟨d, md, ⟨pl⟩⟩ := p
    cases d with
    | none => simp [partitionLoop]
    | some a =>
      cases pl with
      | other => simp [partitionLoop]
      | mac m =>
        have hl : db₁.lookup a = db₂.lookup a := h _ (List.mem_cons_self _ _) a rfl
        simp only [partitionLoop, serve, hl]
        exact ih _ (fun q hq => h q (List.mem_cons_of_mem _ hq))

theorem partition_congr (D : Decrypt) (ord : MapOrder) (db₁ db₂ : handlerDB)
    (packets : List Packet)
    (h : ∀ p ∈ packets, ∀ a, p.DevAddr = some a → db₁.lookup a = db₂.lookup a) :
    (db₁.partition D ord packets).res = (db₂.partition D ord packets).res ∧
      (db₁.partition D ord packets).err = (db₂.partition D ord packets).err ∧
      (db₁.partition D ord packets).packets = (db₂.partition D ord packets).packets ∧
      (db₁.partition D ord packets).calls = (db₂.partition D ord packets).calls := by
  have hloop := partitionLoop_congr D { db₁ with RWMutex := db₁.RWMutex.RLock }
    { db₂ with RWMutex := db₂.RWMutex.RLock } packets
    { partitions := [], packets := [], calls := [] } h
  simp only [handlerDB.partition, hloop]
  cases hr : (partitionLoop D { db₂ with RWMutex := db₂.RWMutex.RLock } packets
    { partitions := [], packets := [], calls := [] }).1 <;> simp

theorem mapSet_flatten (e : handlerEntry) (p : Packet) (k : EUI64) :
    ∀ m : List (EUI64 × handlerPartition),
      (((mapSet m k { handlerEntry := e, Packets := mapPackets m k ++ [p] }).map
          (fun kv => kv.2.Packets)).flatten).Perm
        ((m.map (fun kv => kv.2.Packets)).flatten ++ [p]) := by
  intro m
  induction m with
  | nil => simp [mapSet, mapPackets, mapGet]
  | cons kv m ih =>
    obtain ⟨k0, v0⟩ := kv
    by_cases h0 : k0 = k
    · subst h0
      simp only [mapSet, mapPackets, mapGet, if_true, Option.map_some', Option.getD_some,
        List.map_cons, List.flatten_cons, List.append_assoc]
      exact List.Perm.append_left _ List.perm_append_comm
    · have hp : mapPackets ((k0, v0) :: m) k = mapPackets m k := by
        simp [mapPackets, mapGet, h0]
      simp only [mapSet, h0, if_false, hp, List.map_cons, List.flatten_cons, List.append_assoc]
      exact List.Perm.append_left _ ih

theorem groups_flatten (hs : List (handlerEntry × Packet)) :
    ∀ m : List (EUI64 × handlerPartition),
      (((hs.foldl addHit m).map (fun kv => kv.2.Packets)).flatten).Perm
        ((m.map (fun kv => kv.2.Packets)).flatten ++ hs.map Prod.snd) := by
  induction hs with
  | nil => intro m; simp
  | cons h hs ih =>
    intro m
    simp only [List.foldl_cons, List.map_cons]
    refine (ih (addHit m h)).trans ?_
    have h1 := (mapSet_flatten h.1 h.2 h.1.AppEUI m).append_right (hs.map Prod.snd)
    simpa [addHit, List.append_assoc] using h1

theorem hitOf_isSome (D : Decrypt) (db : handlerDB) (f : Packet) :
    (hitOf D db f).isSome = owned D db f := by
  obtain ⟨d, md, ⟨pl⟩⟩ := f
  cases d with
  | none => simp [hitOf, owned]
  | some a =>
    cases pl with
    | other => simp [hitOf, owned]
    | mac m =>
      simp only [hitOf, owned, Option.isSome_map']
      cases hf : (scanEntries D m (db.lookup a)).found with
      | none => simp [(scanEntries_none D _ m).1 hf]
      | some e =>
        cases hr : allRejected D m (db.lookup a) with
        | false => simp
        | true =>
          rw [(scanEntries_none D _ m).2 hr] at hf
          cases hf

theorem hits_of_owned (D : Decrypt) (db : handlerDB) :
    ∀ packets : List Packet,
      List.Forall₂
        (fun inp out => ∃ m', out = { inp with Payload := { MACPayload := Payload.mac m' } })
        (packets.filter (owned D db)) ((packets.filterMap (hitOf D db)).map Prod.snd) := by
  intro packets
  induction packets with
  | nil => simp
  | cons p ps ih =>
    have hs := hitOf_isSome D db p
    cases hp : hitOf D db p with
    | none =>
      rw [hp] at hs
      have ho : owned D db p = false := by simpa using hs.symm
      simpa [List.filter_cons, List.filterMap_cons, hp, ho] using ih
    | some h =>
      rw [hp] at hs
      have ho : owned D db p = true := by simpa using hs.symm
      simp only [List.filter_cons, ho, if_true, List.filterMap_cons, hp, List.map_cons]
      exact List.Forall₂.cons (hitOf_shape D db p h.2 h.1 hp) ih

theorem framesOf_res (D : Decrypt) (ord : MapOrder) (db : handlerDB) (packets : List Packet)
    (hwf : ∀ p ∈ packets, wellFormed p = true) (k : EUI64) :
    framesOf (db.partition D ord packets).res k =
      ((packets.filterMap (hitOf D db)).filter (fun h => decide (h.1.AppEUI = k))).map
        Prod.snd := by
  unfold framesOf
  cases hfind : (db.partition D ord packets).res.find?
      (fun p => decide (p.handlerEntry.AppEUI = k)) with
  | none =>
    have hnil : (packets.filterMap (hitOf D db)).filter (fun h => decide (h.1.AppEUI = k)) = [] := by
      rw [List.eq_nil_iff_forall_not_mem]
      intro h hmem
      obtain ⟨hin, hk⟩ := List.mem_filter.1 hmem
      obtain ⟨part, h1, h2, _⟩ := group_of_hit _ _ hin
      have hres := (partition_mem_res D ord db packets hwf part).2 ⟨_, h1⟩
      have := List.find?_eq_none.1 hfind part hres
      simp only [decide_eq_true_eq] at this hk
      exact this (h2.trans hk)
    simp [hnil]
  | some part =>
    have hres := List.mem_of_find?_eq_some hfind
    have hk : part.handlerEntry.AppEUI = k := by simpa using List.find?_some hfind
    obtain ⟨a, hget⟩ := (partition_mem_res D ord db packets hwf part).1 hres
    obtain ⟨ha, hpk, _⟩ := group_of_mapGet a _ part hget
    simp only [hpk, ← hk, ha]

/-! ## `store`: when it returns and what it returns -/

theorem store_of_free (db : handlerDB) (a : DevAddr) (t : handlerEntry)
    (h : db.RWMutex.canLock = true) : db.store a t = some (db.appendEntry a t, none) := by
  obtain ⟨⟨r, w⟩, ents⟩ := db
  simp only [sync.RWMutex.canLock, Bool.and_eq_true, beq_iff_eq, Bool.not_eq_true'] at h
  obtain ⟨_, hw⟩ := h
  subst hw
  simp [handlerDB.store, sync.RWMutex.canLock, handlerDB.appendEntry, handlerDB.lookup,
    sync.RWMutex.Lock, sync.RWMutex.Unlock, *]

theorem store_blocks (db : handlerDB) (a : DevAddr) (t : handlerEntry)
    (h : db.RWMutex.canLock = false) : db.store a t = none := by
  simp [handlerDB.store, h]

theorem store_blocked_after_failed_partition :
    (tableABC.partition xorDecrypt MapOrder.insertion [frameA, frameBad]).db.store 1 tupleD =
      none :=
  store_blocks _ 1 tupleD (by decide)

theorem store_returned (db : handlerDB) (a : DevAddr) (t : handlerEntry)
    (r : handlerDB × Option Error) (h : db.store a t = some r) :
    db.RWMutex.canLock = true ∧ r = (db.appendEntry a t, none) := by
  cases hl : db.RWMutex.canLock with
  | false =>
    rw [store_blocks db a t hl] at h
    cases h
  | true =>
    rw [store_of_free db a t hl] at h
    exact ⟨rfl, (Option.some.inj h).symm⟩

theorem lookup_appendEntry (db : handlerDB) (a b : DevAddr) (t : handlerEntry) :
    (db.appendEntry a t).lookup b = if b = a then db.lookup a ++ [t] else db.lookup b := by
  by_cases h : b = a <;> simp [handlerDB.appendEntry, handlerDB.lookup, h]

theorem canLock_appendEntry (db : handlerDB) (a : DevAddr) (t : handlerEntry) :
    (db.appendEntry a t).RWMutex = db.RWMutex := rfl

theorem tableABC_stored :
    ∃ d₁ d₂, newHandlerDB.store 1 tupleA = some (d₁, none) ∧
      d₁.store 1 tupleB = some (d₂, none) ∧ d₂.store 2 tupleC = some (tableABC, none) :=
  ⟨_, _, store_of_free _ 1 tupleA (by decide), store_of_free _ 1 tupleB (by decide),
    store_of_free _ 2 tupleC (by decide)⟩

theorem tablePQR_stored :
    ∃ d₁ d₂, newHandlerDB.store 4 tupleP = some (d₁, none) ∧
      d₁.store 4 tupleQ = some (d₂, none) ∧ d₂.store 4 tupleR = some (tablePQR, none) :=
  ⟨_, _, store_of_free _ 4 tupleP (by decide), store_of_free _ 4 tupleQ (by decide),
    store_of_free _ 4 tupleR (by decide)⟩

/-! ## Short batches -/

theorem partition_single (D : Decrypt) (ord : MapOrder) (db : handlerDB) (f : Packet)
    (a : DevAddr) (m : MACPayload) (e : handlerEntry) (post : List handlerEntry)
    (ha : f.DevAddr = some a) (hm : f.Payload.MACPayload = Payload.mac m)
    (hseq : db.lookup a = e :: post) (hok : (D (portKey e m) m).2 = true) :
    (db.partition D ord [f]).res =
      [{ handlerEntry := e, Packets := [decryptedBy D f m [] e] }] := by
  have hwf : ∀ p ∈ [f], wellFormed p = true := by
    intro p hp
    rw [List.mem_singleton] at hp
    subst hp
    exact (wellFormed_iff p).2 ⟨a, m, ha, hm⟩
  have hhit := (hitOf_of_wins D db f a m [] post e ha hm (by simpa using hseq) rfl
    (by simpa [payloadAfter] using hok)).1
  rw [(partition_wf D ord db [f] hwf).1]
  have hg : (([f].filterMap (hitOf D db)).foldl addHit []).map Prod.snd =
      [{ handlerEntry := e, Packets := [decryptedBy D f m [] e] }] := by
    simp [List.filterMap_cons, hhit, addHit, mapSet, mapPackets, mapGet]
  rw [hg]
  exact List.perm_singleton.1 (ord.perm _)

theorem partition_then_malformed (D : Decrypt) (ord : MapOrder) (db : handlerDB) (f g : Packet)
    (a : DevAddr) (m : MACPayload) (e : handlerEntry) (post : List handlerEntry)
    (ha : f.DevAddr = some a) (hm : f.Payload.MACPayload = Payload.mac m)
    (hg : wellFormed g = false)
    (hseq : db.lookup a = e :: post) (hok : (D (portKey e m) m).2 = true) :
    (db.partition D ord [f, g]).packets = [decryptedBy D f m [] e, g] := by
  have hscan := (scanEntries_hit D m [] post e rfl (by simpa [payloadAfter] using hok)).2.1
  simp only [List.nil_append, payloadAfter] at hscan
  have hl : ({ db with RWMutex := db.RWMutex.RLock } : handlerDB).lookup a = e :: post := hseq
  rw [(partition_memory D ord db [f, g]).1]
  obtain ⟨d, md, ⟨pl⟩⟩ := g
  cases d with
  | none => simp [partitionLoop, ha, hm, serve, hl, hscan, decryptedBy, payloadAfter]
  | some b =>
    cases pl with
    | other => simp [partitionLoop, ha, hm, serve, hl, hscan, decryptedBy, payloadAfter]
    | mac m' => simp [wellFormed] at hg

/-! ## The loop as it runs: each call works on the payload the call before it left -/

/-- The loop stops at the first call that reports success, each call working on the
payload as the rejected calls before it left it: when every tuple stored before `e` is
rejected in turn and the call for `e` then reports success, some output partition has
the AppEUI of `e` and holds the frame with the payload left by that call, and the tuples
tried on the frame are exactly those up to and including `e`. -/
theorem partition_first_accepted (D : Decrypt) (ord : MapOrder) (db : handlerDB)
    (xs ys : List Packet) (f : Packet) (a : DevAddr) (m : MACPayload)
    (pre post : List handlerEntry) (e : handlerEntry)
    (hwf : ∀ p ∈ xs ++ f :: ys, wellFormed p = true)
    (ha : f.DevAddr = some a) (hm : f.Payload.MACPayload = Payload.mac m)
    (hseq : db.lookup a = pre ++ e :: post)
    (hrej : allRejected D m pre = true)
    (hok : (D (portKey e (payloadAfter D m pre)) (payloadAfter D m pre)).2 = true) :
    (∃ part ∈ (db.partition D ord (xs ++ f :: ys)).res,
        part.handlerEntry.AppEUI = e.AppEUI ∧ decryptedBy D f m pre e ∈ part.Packets) ∧
      ((db.partition D ord (xs ++ f :: ys)).calls[xs.length]?).map
          (fun cs => cs.map (fun c => c.entry)) = some (pre ++ [e]) := by
  obtain ⟨hhit, hcalls⟩ := hitOf_of_wins D db f a m pre post e ha hm hseq hrej hok
  constructor
  · have hmem : (e, decryptedBy D f m pre e) ∈ (xs ++ f :: ys).filterMap (hitOf D db) :=
      List.mem_filterMap.2 ⟨f, by simp, hhit⟩
    obtain ⟨part, h1, h2, h3⟩ := group_of_hit _ _ hmem
    exact ⟨part, (partition_mem_res D ord db _ hwf part).2 ⟨_, h1⟩, h2, h3⟩
  · have hget : ((xs ++ f :: ys).map (callsOf D db))[xs.length]? = some (callsOf D db f) := by
      rw [List.map_append, List.map_cons, List.getElem?_append_right (by simp)]
      simp
    rw [(partition_wf D ord db _ hwf).2.2.2.1, hget, Option.map_some', hcalls]

/-- Every call of decrypt that `partition` makes passes the network key of the candidate
tuple when the port of the payload is 0 and its application key on any other port, and
the recorded verdict is what decrypt reports under that key on the payload as it then
stands. -/
theorem partition_call_keys (D : Decrypt) (ord : MapOrder) (db : handlerDB)
    (packets : List Packet) (cs : List DecryptCall) (c : DecryptCall)
    (hcs : cs ∈ (db.partition D ord packets).calls) (hc : c ∈ cs) :
    (c.payload.FPort = 0 → c.key = c.entry.NwkSKey) ∧
      (c.payload.FPort ≠ 0 → c.key = c.entry.AppSKey) ∧
      c.ok = (D c.key c.payload).2 ∧
      (c.payload.FPort = 0 → (D c.entry.NwkSKey c.payload).2 = false → c.ok = false) ∧
      (c.payload.FPort ≠ 0 → (D c.entry.AppSKey c.payload).2 = false → c.ok = false) := by
  obtain ⟨m, es, hm⟩ := partition_calls D ord db packets cs hcs
  subst hm
  obtain ⟨h1, h2, _⟩ := scanEntries_calls D es m c hc
  refine ⟨fun h => by simpa [h] using h1, fun h => by simpa [h] using h1, h2, ?_, ?_⟩
  · intro h h3
    rw [h2, h1, if_pos h, h3]
  · intro h h3
    rw [h2, h1, if_neg h, h3]

/-- A frame for which every call reports a failure, the tuples stored under its address
being tried in turn (none may be stored at all), raises no error and leaves the returned
partitions exactly as they are for the batch without that frame. -/
theorem partition_drops_rejected (D : Decrypt) (ord : MapOrder) (db : handlerDB)
    (xs ys : List Packet) (f : Packet) (a : DevAddr) (m : MACPayload)
    (hwf : ∀ p ∈ xs ++ f :: ys, wellFormed p = true)
    (ha : f.DevAddr = some a) (hm : f.Payload.MACPayload = Payload.mac m)
    (hrej : allRejected D m (db.lookup a) = true) :
    (db.partition D ord (xs ++ f :: ys)).err = none ∧
      (db.partition D ord (xs ++ f :: ys)).res = (db.partition D ord (xs ++ ys)).res ∧
      ((∀ g ∈ xs ++ ys, g.Metadata ≠ f.Metadata) →
        ∀ part ∈ (db.partition D ord (xs ++ f :: ys)).res, ∀ g ∈ part.Packets,
          g.Metadata ≠ f.Metadata) := by
  have hwf' : ∀ p ∈ xs ++ ys, wellFormed p = true := by
    intro p hp
    apply hwf
    rcases List.mem_append.1 hp with h | h
    · exact List.mem_append_left _ h
    · exact List.mem_append_right _ (List.mem_cons_of_mem _ h)
  have hnone := hitOf_none D db f a m ha hm hrej
  have hhits : (xs ++ f :: ys).filterMap (hitOf D db) = (xs ++ ys).filterMap (hitOf D db) := by
    simp [List.filterMap_append, List.filterMap_cons, hnone]
  have hres : (db.partition D ord (xs ++ f :: ys)).res = (db.partition D ord (xs ++ ys)).res := by
    rw [(partition_wf D ord db _ hwf).1, (partition_wf D ord db _ hwf').1, hhits]
  refine ⟨(partition_wf D ord db _ hwf).2.1, hres, ?_⟩
  intro hmeta part hpart g hg
  rw [hres] at hpart
  obtain ⟨k, hget⟩ := (partition_mem_res D ord db _ hwf' part).1 hpart
  obtain ⟨_, hpk, _⟩ := group_of_mapGet k _ part hget
  rw [hpk] at hg
  obtain ⟨⟨e, g'⟩, hmem, hg'⟩ := List.mem_map.1 hg
  obtain ⟨inp, hinp, hhit⟩ := List.mem_filterMap.1 (List.mem_filter.1 hmem).1
  have := (wins_of_hitOf D db inp g' e hhit).2.2
  simp only at hg'
  rw [← hg', this]
  exact hmeta inp hinp

/-- The frames of all output partitions taken together are, one for one, the frames at
the positions of the batch for which some call reported success, each with nothing
changed but the content of its MAC payload. -/
theorem partition_frames_accounted (D : Decrypt) (ord : MapOrder) (db : handlerDB)
    (packets : List Packet) (hwf : ∀ p ∈ packets, wellFormed p = true) :
    (∃ outs,
        List.Forall₂
          (fun inp out => ∃ m', out = { inp with Payload := { MACPayload := Payload.mac m' } })
          (packets.filter (owned D db)) outs ∧
        (((db.partition D ord packets).res.map (fun p => p.Packets)).flatten).Perm outs) ∧
      ((db.partition D ord packets).res.map (fun p => p.Packets.length)).sum =
        (packets.filter (owned D db)).length := by
  have hrel := hits_of_owned D db packets
  have hperm : (((db.partition D ord packets).res.map (fun p => p.Packets)).flatten).Perm
      ((packets.filterMap (hitOf D db)).map Prod.snd) := by
    rw [(partition_wf D ord db packets hwf).1]
    refine (((ord.perm _).map (fun p => p.Packets)).flatten).trans ?_
    rw [List.map_map]
    simpa using groups_flatten (packets.filterMap (hitOf D db)) []
  refine ⟨⟨_, hrel, hperm⟩, ?_⟩
  have hlen := hperm.length_eq
  rw [List.length_flatten, List.map_map] at hlen
  rw [hrel.length_eq]
  exact hlen

/-! ## Properties of `partition` -/

/-- C1, the code at a failing input. Under address 4 are stored `tupleP`, `tupleQ`,
`tupleR`, and `tupleQ` is the only one, hence the earliest, for which decrypt reports
success on `frameQ`. The rejected call for `tupleP` rewrites the payload, the call for
`tupleQ` then fails on what is left, and `tupleR`, stored after `tupleQ`, is tried and
wins: the frame is attributed to application 12 instead of application 6. -/
theorem partition_first_match_overtaken :
    tablePQR.lookup 4 = [tupleP, tupleQ, tupleR] ∧
      (tablePQR.lookup 4).find? (fun t => (xorDecrypt (portKey t payloadQ) payloadQ).2) =
        some tupleQ ∧
      (tablePQR.lookup 4).filter (fun t => (xorDecrypt (portKey t payloadQ) payloadQ).2) =
        [tupleQ] ∧
      (tablePQR.partition xorDecrypt MapOrder.insertion [frameQ]).res =
        [{ handlerEntry := tupleR,
           Packets := [{ frameQ with Payload :=
             { MACPayload := Payload.mac { FPort := 0, FRMPayload := [1] } } }] }] ∧
      (tablePQR.partition xorDecrypt MapOrder.insertion [frameQ]).calls.map
          (fun cs => cs.map (fun c => c.entry)) = [[tupleP, tupleQ, tupleR]] := by
  decide

/-- C2. All-or-nothing failure: when any frame of the batch, at any position, has no
address or no MAC payload, the call returns the nil slice and `ErrInvalidPacket`,
whatever the frames before it matched. -/
theorem partition_malformed_fails (D : Decrypt) (ord : MapOrder) (db : handlerDB)
    (packets : List Packet) (h : ∃ p ∈ packets, wellFormed p = false) :
    (db.partition D ord packets).res = [] ∧
      (db.partition D ord packets).err = some Error.ErrInvalidPacket :=
  partition_of_malformed D ord db packets h

/-- C2, on an input: a matched frame followed by a malformed one. -/
theorem partition_malformed_fails_witness :
    (∃ p ∈ [frameA, frameBad], wellFormed p = false) ∧
      (tableABC.partition xorDecrypt MapOrder.insertion [frameA, frameBad]).res = [] ∧
      (tableABC.partition xorDecrypt MapOrder.insertion [frameA, frameBad]).err =
        some Error.ErrInvalidPacket :=
  ⟨by decide, partition_malformed_fails xorDecrypt MapOrder.insertion tableABC
    [frameA, frameBad] (by decide)⟩

/-- C3, refuted as stated: on `[frameA, frameC]` the first frame attributed to
application 7 is `frameA`, which `tupleA` decrypted, and yet the partition of
application 7 does not carry `tupleA`. -/
theorem partition_records_first_match_counterexample :
    ¬ (∀ part ∈ (tableABC.partition xorDecrypt MapOrder.insertion [frameA, frameC]).res,
        ∀ (xs ys : List Packet) (f : Packet) (e : handlerEntry),
          [frameA, frameC] = xs ++ f :: ys →
          Wins xorDecrypt tableABC f e → e.AppEUI = part.handlerEntry.AppEUI →
          (∀ g ∈ xs, ∀ e', Wins xorDecrypt tableABC g e' →
            e'.AppEUI ≠ part.handlerEntry.AppEUI) →
          part.handlerEntry = e) := by
  intro h
  have hmem : groupAC ∈
      (tableABC.partition xorDecrypt MapOrder.insertion [frameA, frameC]).res := by decide
  have hw : Wins xorDecrypt tableABC frameA tupleA :=
    ⟨1, { FPort := 0, FRMPayload := [1, 4] }, [], [tupleB], rfl, rfl, by decide, by decide,
      by decide⟩
  have := h _ hmem [] [frameC] frameA tupleA rfl hw rfl (by simp)
  exact absurd this (by decide)

/-- C3, amended. Each output partition carries the tuple that decrypted the last frame
of the batch attributed to its AppEUI: the batch splits around a frame won by the
recorded tuple, after which no frame is won by a tuple of that AppEUI. -/
theorem partition_records_last_match (D : Decrypt) (ord : MapOrder) (db : handlerDB)
    (packets : List Packet) (hwf : ∀ p ∈ packets, wellFormed p = true)
    (part : handlerPartition) (hpart : part ∈ (db.partition D ord packets).res) :
    ∃ xs f ys, packets = xs ++ f :: ys ∧ Wins D db f part.handlerEntry ∧
      ∀ g ∈ ys, ∀ e, Wins D db g e → e.AppEUI ≠ part.handlerEntry.AppEUI := by
  obtain ⟨a, hget⟩ := (partition_mem_res D ord db packets hwf part).1 hpart
  obtain ⟨ha, _, l₁, last, l₂, hsplit, hlast, hafter⟩ := group_of_mapGet a _ part hget
  obtain ⟨p₁, p₂, h1, _, h3⟩ := List.filterMap_eq_append_iff.1 hsplit
  obtain ⟨q₁, f, q₂, h4, _, h6, h7⟩ := List.filterMap_eq_cons_iff.1 h3
  refine ⟨p₁ ++ q₁, f, q₂, by rw [h1, h4, List.append_assoc], ?_, ?_⟩
  · have := (wins_of_hitOf D db f last.2 last.1 h6).1
    rwa [hlast] at this
  · intro g hg e hw
    obtain ⟨g', hg'⟩ := hitOf_of_Wins D db g e hw
    have hmem : (e, g') ∈ l₂ := by
      rw [← h7]
      exact List.mem_filterMap.2 ⟨g, hg, hg'⟩
    rw [ha]
    exact hafter _ hmem

/-- C3 amended, on an input: the partition of application 7 for `[frameA, frameC]`. -/
theorem partition_records_last_match_witness :
    (∀ p ∈ [frameA, frameC], wellFormed p = true) ∧
      groupAC ∈
        (tableABC.partition xorDecrypt MapOrder.insertion [frameA, frameC]).res ∧
      ∃ xs f ys, [frameA, frameC] = xs ++ f :: ys ∧
        Wins xorDecrypt tableABC f groupAC.handlerEntry ∧
        ∀ g ∈ ys, ∀ e, Wins xorDecrypt tableABC g e → e.AppEUI ≠ groupAC.handlerEntry.AppEUI :=
  ⟨by decide, by decide,
    partition_records_last_match xorDecrypt MapOrder.insertion tableABC [frameA, frameC]
      (by decide) groupAC (by decide)⟩

/-- C4, the code at a failing input: on a batch whose second frame is malformed the call
returns `ErrInvalidPacket` with the read lock it took still held, so that `Lock()` is
not granted afterwards, whereas on the batch without the malformed frame the lock comes
back free. -/
theorem partition_leaks_read_lock :
    tableABC.RWMutex.canLock = true ∧
      (tableABC.partition xorDecrypt MapOrder.insertion [frameA, frameBad]).err =
        some Error.ErrInvalidPacket ∧
      (tableABC.partition xorDecrypt MapOrder.insertion [frameA, frameBad]).db.RWMutex.readers = 1 ∧
      (tableABC.partition xorDecrypt MapOrder.insertion [frameA, frameBad]).db.RWMutex.canLock
        = false ∧
      (tableABC.partition xorDecrypt MapOrder.insertion [frameA]).err = none ∧
      (tableABC.partition xorDecrypt MapOrder.insertion [frameA]).db.RWMutex.canLock = true := by
  decide

/-- C5, the code at a failing input. `frameQ` is on port 0; the network key of `tupleS`
rejects it and its application key decrypts it, so the frame decrypts under `tupleS`
with the application key only. Both calls made for the frame pass network keys, as the
port requires, yet the call for `tupleS` runs on the payload that the rejected call for
`tupleP` rewrote, reports success, and the frame is attributed to `tupleS`. -/
theorem partition_attributes_under_other_key :
    tablePS.lookup 4 = [tupleP, tupleS] ∧ payloadQ.FPort = 0 ∧
      (xorDecrypt tupleS.NwkSKey payloadQ).2 = false ∧
      (xorDecrypt tupleS.AppSKey payloadQ).2 = true ∧
      (tablePS.partition xorDecrypt MapOrder.insertion [frameQ]).calls =
        [[{ entry := tupleP, key := tupleP.NwkSKey, payload := payloadQ, ok := false },
          { entry := tupleS, key := tupleS.NwkSKey,
            payload := { FPort := 0, FRMPayload := [24] }, ok := true }]] ∧
      (tablePS.partition xorDecrypt MapOrder.insertion [frameQ]).res =
        [{ handlerEntry := tupleS,
           Packets := [{ frameQ with Payload :=
             { MACPayload := Payload.mac { FPort := 0, FRMPayload := [0] } } }] }] := by
  decide

/-- C6, the code at a failing input: `tupleA` is tried first on `frameB`, rejects it and
leaves its payload rewritten; `tupleB` then accepts what is left. The frame placed in
the partition of `tupleB` carries the bytes `[1, 29]`, whereas decrypting the input
payload of the frame with the port-selected key of `tupleB` succeeds and gives
`[0, 28]`, which is what the call returns when `tupleB` is the only tuple stored. -/
theorem partition_payload_after_rejection :
    (tableABC.partition xorDecrypt MapOrder.insertion [frameB]).res =
        [{ handlerEntry := tupleB,
           Packets := [{ frameB with Payload :=
             { MACPayload := Payload.mac { FPort := 0, FRMPayload := [1, 29] } } }] }] ∧
      xorDecrypt (portKey tupleB payloadB) payloadB =
        ({ FPort := 0, FRMPayload := [0, 28] }, true) ∧
      (tableB.partition xorDecrypt MapOrder.insertion [frameB]).res =
        [{ handlerEntry := tupleB,
           Packets := [{ frameB with Payload :=
             { MACPayload := Payload.mac { FPort := 0, FRMPayload := [0, 28] } } }] }] := by
  decide

/-- C7, the code at a failing input. Under address 4 are stored `tupleP` and `tupleT`,
and decrypt reports a failure on `frameQ` for both: no stored tuple decrypts the frame.
The call for `tupleT` runs on the payload that the rejected call for `tupleP` rewrote
and reports success, so the frame is not dropped: it lands in the partition of
application 11, where the batch without the frame yields no partition. -/
theorem partition_attributes_unowned :
    tablePT.lookup 4 = [tupleP, tupleT] ∧
      decryptable xorDecrypt tablePT frameQ = false ∧
      (tablePT.partition xorDecrypt MapOrder.insertion [frameQ]).err = none ∧
      (tablePT.partition xorDecrypt MapOrder.insertion [frameQ]).res =
        [{ handlerEntry := tupleT,
           Packets := [{ frameQ with Payload :=
             { MACPayload := Payload.mac { FPort := 0, FRMPayload := [0] } } }] }] ∧
      (tablePT.partition xorDecrypt MapOrder.insertion []).res = [] := by
  decide

/-- C8. Decrypt mismatch is never an error: the call returns `ErrInvalidPacket` exactly
when some frame of the batch has no address or no MAC payload, and returns no error
exactly when every frame is well-formed, whatever decrypt reports and also on the empty
batch. -/
theorem partition_error_iff (D : Decrypt) (ord : MapOrder) (db : handlerDB)
    (packets : List Packet) :
    ((db.partition D ord packets).err = some Error.ErrInvalidPacket ↔
        ∃ p ∈ packets, wellFormed p = false) ∧
      ((db.partition D ord packets).err = none ↔ ∀ p ∈ packets, wellFormed p = true) := by
  by_cases h : ∀ p ∈ packets, wellFormed p = true
  · have h1 := (partition_wf D ord db packets h).2.1
    refine ⟨⟨fun h2 => ?_, fun h2 => ?_⟩, ⟨fun _ => h, fun _ => h1⟩⟩
    · rw [h1] at h2
      cases h2
    · obtain ⟨p, hp, hp'⟩ := h2
      rw [h p hp] at hp'
      cases hp'
  · have h' : ∃ p ∈ packets, wellFormed p = false := by
      push_neg at h
      obtain ⟨p, hp, hp'⟩ := h
      exact ⟨p, hp, by simpa using hp'⟩
    have h1 := (partition_of_malformed D ord db packets h').2
    refine ⟨⟨fun _ => h', fun _ => h1⟩, ⟨fun h2 => ?_, fun h2 => absurd h2 h⟩⟩
    rw [h1] at h2
    cases h2

/-- C9. Frame order inside a partition. For a batch of well-formed frames, the frames of
each output partition are, one for one and in the same order, the frames of a
subsequence of the batch, each with nothing changed but the content of its MAC payload,
and each won by a tuple of the AppEUI of the partition. -/
theorem partition_keeps_order (D : Decrypt) (ord : MapOrder) (db : handlerDB)
    (packets : List Packet) (hwf : ∀ p ∈ packets, wellFormed p = true)
    (part : handlerPartition) (hpart : part ∈ (db.partition D ord packets).res) :
    ∃ sub, sub.Sublist packets ∧
      List.Forall₂
        (fun inp out => (∃ m', out = { inp with Payload := { MACPayload := Payload.mac m' } }) ∧
          ∃ e, Wins D db inp e ∧ e.AppEUI = part.handlerEntry.AppEUI)
        sub part.Packets := by
  obtain ⟨k, hget⟩ := (partition_mem_res D ord db packets hwf part).1 hpart
  obtain ⟨hk, hpk, _⟩ := group_of_mapGet k _ part hget
  rw [hpk, hk]
  exact hits_order D db k packets

/-- C9, on an input: the partition of application 7 for `[frameA, frameB, frameC]`
holds `frameA` then `frameC`. -/
theorem partition_keeps_order_witness :
    (∀ p ∈ [frameA, frameB, frameC], wellFormed p = true) ∧
      groupAC ∈ (tableABC.partition xorDecrypt MapOrder.insertion [frameA, frameB, frameC]).res ∧
      ∃ sub, sub.Sublist [frameA, frameB, frameC] ∧
        List.Forall₂
          (fun inp out =>
            (∃ m', out = { inp with Payload := { MACPayload := Payload.mac m' } }) ∧
            ∃ e, Wins xorDecrypt tableABC inp e ∧ e.AppEUI = groupAC.handlerEntry.AppEUI)
          sub groupAC.Packets :=
  ⟨by decide, by decide,
    partition_keeps_order xorDecrypt MapOrder.insertion tableABC [frameA, frameB, frameC]
      (by decide) groupAC (by decide)⟩

/-- C10. One partition per matched AppEUI. For a batch of well-formed frames, no two
output partitions have the same AppEUI, every output partition holds at least one frame,
and an AppEUI has an output partition exactly when some frame of the batch is won by a
tuple of that AppEUI. -/
theorem partition_one_per_app (D : Decrypt) (ord : MapOrder) (db : handlerDB)
    (packets : List Packet) (hwf : ∀ p ∈ packets, wellFormed p = true) :
    ((db.partition D ord packets).res.map (fun p => p.handlerEntry.AppEUI)).Nodup ∧
      (∀ part ∈ (db.partition D ord packets).res, part.Packets ≠ []) ∧
      ∀ k : EUI64, (∃ part ∈ (db.partition D ord packets).res, part.handlerEntry.AppEUI = k) ↔
        ∃ f ∈ packets, ∃ e, Wins D db f e ∧ e.AppEUI = k := by
  refine ⟨?_, ?_, ?_⟩
  · rw [(partition_wf D ord db packets hwf).1,
      ((ord.perm _).map (fun p => p.handlerEntry.AppEUI)).nodup_iff, groups_keys]
    exact addHit_nodup _ [] (by simp)
  · intro part hpart
    obtain ⟨k, hget⟩ := (partition_mem_res D ord db packets hwf part).1 hpart
    obtain ⟨hk, hpk, l₁, last, l₂, hsplit, hlast, _⟩ := group_of_mapGet k _ part hget
    have hmem : last ∈ (packets.filterMap (hitOf D db)).filter
        (fun h => decide (h.1.AppEUI = k)) := by
      refine List.mem_filter.2 ⟨by rw [hsplit]; simp, ?_⟩
      simp [hlast, hk]
    rw [hpk]
    intro hnil
    rw [List.map_eq_nil_iff] at hnil
    rw [hnil] at hmem
    simp at hmem
  · intro k
    constructor
    · rintro ⟨part, hpart, hk⟩
      obtain ⟨k', hget⟩ := (partition_mem_res D ord db packets hwf part).1 hpart
      obtain ⟨_, _, l₁, last, l₂, hsplit, hlast, _⟩ := group_of_mapGet k' _ part hget
      have hmem : last ∈ packets.filterMap (hitOf D db) := by rw [hsplit]; simp
      obtain ⟨f, hf, hhit⟩ := List.mem_filterMap.1 hmem
      exact ⟨f, hf, last.1, (wins_of_hitOf D db f last.2 last.1 hhit).1, by rw [hlast, hk]⟩
    · rintro ⟨f, hf, e, hw, hk⟩
      obtain ⟨f', hhit⟩ := hitOf_of_Wins D db f e hw
      have hmem : (e, f') ∈ packets.filterMap (hitOf D db) := List.mem_filterMap.2 ⟨f, hf, hhit⟩
      obtain ⟨part, h1, h2, _⟩ := group_of_hit _ _ hmem
      exact ⟨part, (partition_mem_res D ord db packets hwf part).2 ⟨_, h1⟩, by rw [h2, ← hk]⟩

/-- C10, on an input: `[frameA, frameB, frameC, frameU]` yields the partitions of
applications 7 and 8. -/
theorem partition_one_per_app_witness :
    (∀ p ∈ [frameA, frameB, frameC, frameU], wellFormed p = true) ∧
      (((tableABC.partition xorDecrypt MapOrder.insertion
          [frameA, frameB, frameC, frameU]).res.map (fun p => p.handlerEntry.AppEUI)).Nodup ∧
        (∀ part ∈ (tableABC.partition xorDecrypt MapOrder.insertion
            [frameA, frameB, frameC, frameU]).res, part.Packets ≠ []) ∧
        ∀ k : EUI64,
          (∃ part ∈ (tableABC.partition xorDecrypt MapOrder.insertion
              [frameA, frameB, frameC, frameU]).res, part.handlerEntry.AppEUI = k) ↔
            ∃ f ∈ [frameA, frameB, frameC, frameU], ∃ e,
              Wins xorDecrypt tableABC f e ∧ e.AppEUI = k) :=
  ⟨by decide,
    partition_one_per_app xorDecrypt MapOrder.insertion tableABC
      [frameA, frameB, frameC, frameU] (by decide)⟩

/-! ## Properties of `store`, and of `store` with `partition` -/

/-- C11. `store` appends and always succeeds. With the lock free, `store` returns, with
no error, a table in which the sequence stored under the address is the sequence read
there before (nil when the address had no binding) followed by the tuple; the lock is
free again, and a second `store` of the same tuple returns as well and makes the tuple
occur twice. -/
theorem store_appends (db : handlerDB) (a : DevAddr) (t : handlerEntry)
    (h : db.RWMutex.canLock = true) :
    ∃ db₁ db₂, db.store a t = some (db₁, none) ∧
      db₁.entries a = some ((db.entries a).getD [] ++ [t]) ∧
      db₁.lookup a = db.lookup a ++ [t] ∧
      db₁.RWMutex = db.RWMutex ∧
      db₁.store a t = some (db₂, none) ∧
      db₂.lookup a = db.lookup a ++ [t, t] := by
  refine ⟨db.appendEntry a t, (db.appendEntry a t).appendEntry a t, store_of_free db a t h,
    ?_, ?_, rfl, store_of_free _ a t h, ?_⟩
  · simp [handlerDB.appendEntry, handlerDB.lookup]
  · simp [lookup_appendEntry]
  · simp [lookup_appendEntry]

/-- C11, on an input: `tupleA` stored once more under address 1 of `tableABC`. -/
theorem store_appends_witness :
    tableABC.RWMutex.canLock = true ∧
      ∃ db₁ db₂, tableABC.store 1 tupleA = some (db₁, none) ∧
        db₁.entries 1 = some ((tableABC.entries 1).getD [] ++ [tupleA]) ∧
        db₁.lookup 1 = tableABC.lookup 1 ++ [tupleA] ∧
        db₁.RWMutex = tableABC.RWMutex ∧
        db₁.store 1 tupleA = some (db₂, none) ∧
        db₂.lookup 1 = tableABC.lookup 1 ++ [tupleA, tupleA] :=
  ⟨by decide, store_appends tableABC 1 tupleA (by decide)⟩

/-- C12. `partition` never writes the key table: whether the call returns partitions or
`ErrInvalidPacket`, the map from addresses to sequences is afterwards what it was
before, bindings and absences of bindings alike. -/
theorem partition_keeps_entries (D : Decrypt) (ord : MapOrder) (db : handlerDB)
    (packets : List Packet) : (db.partition D ord packets).db.entries = db.entries := by
  cases hr : (partitionLoop D { db with RWMutex := db.RWMutex.RLock } packets
    { partitions := [], packets := [], calls := [] }).1 <;>
    simp [handlerDB.partition, hr]

/-- C16. `store` touches only its own address: in the table that `store(a, t)` returns,
the binding of any other address, or the absence of a binding, is what it was before. -/
theorem store_other_address (db : handlerDB) (a b : DevAddr) (t : handlerEntry) (h : b ≠ a)
    (r : handlerDB × Option Error) (hs : db.store a t = some r) :
    r.1.entries b = db.entries b := by
  rw [(store_returned db a t r hs).2]
  simp [handlerDB.appendEntry, h]

/-- C16, on an input: storing under address 1 leaves the binding of address 2. -/
theorem store_other_address_witness :
    (2 : DevAddr) ≠ 1 ∧
      tableABC.store 1 tupleD = some (tableABC.appendEntry 1 tupleD, none) ∧
      (tableABC.appendEntry 1 tupleD, (none : Option Error)).1.entries 2 = tableABC.entries 2 :=
  ⟨by decide, store_of_free tableABC 1 tupleD (by decide),
    store_other_address tableABC 1 2 tupleD (by decide) _
      (store_of_free tableABC 1 tupleD (by decide))⟩

/-- C13. Insertion order decides collisions. Take two tuples of different AppEUI and a
frame that both decrypt, and a table with the lock free and nothing stored under the
address of the frame. Storing the first tuple then the second, the one-frame batch is
attributed to the first; storing the second then the first, it is attributed to the
second; the two results differ, so the two `store` calls do not commute. -/
theorem store_order_decides (D : Decrypt) (ord : MapOrder) (db : handlerDB) (a : DevAddr)
    (t₁ t₂ : handlerEntry) (f : Packet) (m : MACPayload)
    (hlock : db.RWMutex.canLock = true) (hfresh : db.lookup a = [])
    (hne : t₁.AppEUI ≠ t₂.AppEUI)
    (ha : f.DevAddr = some a) (hm : f.Payload.MACPayload = Payload.mac m)
    (h₁ : (D (portKey t₁ m) m).2 = true) (h₂ : (D (portKey t₂ m) m).2 = true) :
    ∃ d₁ d₁₂ d₂ d₂₁, db.store a t₁ = some (d₁, none) ∧ d₁.store a t₂ = some (d₁₂, none) ∧
      db.store a t₂ = some (d₂, none) ∧ d₂.store a t₁ = some (d₂₁, none) ∧
      (d₁₂.partition D ord [f]).res =
        [{ handlerEntry := t₁, Packets := [decryptedBy D f m [] t₁] }] ∧
      (d₂₁.partition D ord [f]).res =
        [{ handlerEntry := t₂, Packets := [decryptedBy D f m [] t₂] }] ∧
      (d₁₂.partition D ord [f]).res ≠ (d₂₁.partition D ord [f]).res := by
  have r₁ := partition_single D ord ((db.appendEntry a t₁).appendEntry a t₂) f a m t₁ [t₂]
    ha hm (by simp [lookup_appendEntry, hfresh]) h₁
  have r₂ := partition_single D ord ((db.appendEntry a t₂).appendEntry a t₁) f a m t₂ [t₁]
    ha hm (by simp [lookup_appendEntry, hfresh]) h₂
  refine ⟨_, _, _, _, store_of_free db a t₁ hlock, store_of_free _ a t₂ hlock,
    store_of_free db a t₂ hlock, store_of_free _ a t₁ hlock, r₁, r₂, ?_⟩
  rw [r₁, r₂]
  intro h
  have := congrArg (fun l => l.map (fun p => p.handlerEntry.AppEUI)) h
  simp only [List.map_cons, List.map_nil, List.cons.injEq, and_true] at this
  exact hne this

/-- C13, on an input: `tupleA` and `tupleD` both decrypt `frameA`; stored in the two
orders on the empty table they give the frame to application 7 or to application 9. -/
theorem store_order_decides_witness :
    newHandlerDB.RWMutex.canLock = true ∧ newHandlerDB.lookup 1 = [] ∧
      tupleA.AppEUI ≠ tupleD.AppEUI ∧
      (xorDecrypt (portKey tupleA payloadA) payloadA).2 = true ∧
      (xorDecrypt (portKey tupleD payloadA) payloadA).2 = true ∧
      ∃ d₁ d₁₂ d₂ d₂₁, newHandlerDB.store 1 tupleA = some (d₁, none) ∧
        d₁.store 1 tupleD = some (d₁₂, none) ∧
        newHandlerDB.store 1 tupleD = some (d₂, none) ∧ d₂.store 1 tupleA = some (d₂₁, none) ∧
        (d₁₂.partition xorDecrypt MapOrder.insertion [frameA]).res =
          [{ handlerEntry := tupleA,
             Packets := [decryptedBy xorDecrypt frameA payloadA [] tupleA] }] ∧
        (d₂₁.partition xorDecrypt MapOrder.insertion [frameA]).res =
          [{ handlerEntry := tupleD,
             Packets := [decryptedBy xorDecrypt frameA payloadA [] tupleD] }] ∧
        (d₁₂.partition xorDecrypt MapOrder.insertion [frameA]).res ≠
          (d₂₁.partition xorDecrypt MapOrder.insertion [frameA]).res :=
  ⟨by decide, by decide, by decide, by decide, by decide,
    store_order_decides xorDecrypt MapOrder.insertion newHandlerDB 1 tupleA tupleD frameA
      payloadA (by decide) (by decide) (by decide) rfl rfl (by decide) (by decide)⟩

/-- C15. No rollback of frame payloads on failure. Take a frame whose payload the
first tuple stored under its address decrypts, the call changing the payload, and
follow it by a malformed frame. The call returns `ErrInvalidPacket` and the nil slice,
and the batch is left with the first frame carrying the payload that the decrypt call
wrote, which differs from the payload it came with, and the malformed frame as it
was. -/
theorem partition_no_payload_rollback (D : Decrypt) (ord : MapOrder) (db : handlerDB)
    (f g : Packet) (a : DevAddr) (m : MACPayload) (e : handlerEntry)
    (post : List handlerEntry)
    (ha : f.DevAddr = some a) (hm : f.Payload.MACPayload = Payload.mac m)
    (hg : wellFormed g = false)
    (hseq : db.lookup a = e :: post) (hok : (D (portKey e m) m).2 = true)
    (hchg : (D (portKey e m) m).1 ≠ m) :
    (db.partition D ord [f, g]).err = some Error.ErrInvalidPacket ∧
      (db.partition D ord [f, g]).res = [] ∧
      (db.partition D ord [f, g]).packets = [decryptedBy D f m [] e, g] ∧
      (decryptedBy D f m [] e).Payload ≠ f.Payload := by
  have h := partition_of_malformed D ord db [f, g] ⟨g, by simp, hg⟩
  refine ⟨h.2, h.1, partition_then_malformed D ord db f g a m e post ha hm hg hseq hok, ?_⟩
  intro heq
  have h2 : (decryptedBy D f m [] e).Payload.MACPayload = f.Payload.MACPayload := by rw [heq]
  rw [hm] at h2
  simp only [decryptedBy, payloadAfter, Payload.mac.injEq] at h2
  exact hchg h2

/-- C15, on an input: `frameA`, which `tupleA` decrypts, followed by `frameBad`. -/
theorem partition_no_payload_rollback_witness :
    wellFormed frameBad = false ∧ tableABC.lookup 1 = tupleA :: [tupleB] ∧
      (xorDecrypt (portKey tupleA payloadA) payloadA).2 = true ∧
      (xorDecrypt (portKey tupleA payloadA) payloadA).1 ≠ payloadA ∧
      ((tableABC.partition xorDecrypt MapOrder.insertion [frameA, frameBad]).err =
          some Error.ErrInvalidPacket ∧
        (tableABC.partition xorDecrypt MapOrder.insertion [frameA, frameBad]).res = [] ∧
        (tableABC.partition xorDecrypt MapOrder.insertion [frameA, frameBad]).packets =
          [decryptedBy xorDecrypt frameA payloadA [] tupleA, frameBad] ∧
        (decryptedBy xorDecrypt frameA payloadA [] tupleA).Payload ≠ frameA.Payload) :=
  ⟨by decide, by decide, by decide, by decide,
    partition_no_payload_rollback xorDecrypt MapOrder.insertion tableABC frameA frameBad 1
      payloadA tupleA [tupleB] rfl rfl (by decide) (by decide) (by decide) (by decide)⟩

/-- C18. Tuples under other addresses do not interfere: when no frame of the batch
carries the address `a`, the call returns the same partitions and the same error, leaves
the batch in the same state and makes the same decrypt calls on the table as it is and
on the table that `store(a, t)` returns. -/
theorem partition_ignores_other_address (D : Decrypt) (ord : MapOrder) (db : handlerDB)
    (packets : List Packet) (a : DevAddr) (t : handlerEntry)
    (h : ∀ p ∈ packets, p.DevAddr ≠ some a)
    (r : handlerDB × Option Error) (hs : db.store a t = some r) :
    (r.1.partition D ord packets).res = (db.partition D ord packets).res ∧
      (r.1.partition D ord packets).err = (db.partition D ord packets).err ∧
      (r.1.partition D ord packets).packets = (db.partition D ord packets).packets ∧
      (r.1.partition D ord packets).calls = (db.partition D ord packets).calls := by
  rw [(store_returned db a t r hs).2]
  apply partition_congr
  intro p hp b hb
  have hne : b ≠ a := by
    intro hba
    subst hba
    exact h p hp hb
  simp [lookup_appendEntry, hne]

/-- C18, on an input: storing under address 9, which no frame of the batch carries. -/
theorem partition_ignores_other_address_witness :
    (∀ p ∈ [frameA, frameB, frameC, frameU], p.DevAddr ≠ some 9) ∧
      tableABC.store 9 tupleD = some (tableABC.appendEntry 9 tupleD, none) ∧
      (((tableABC.appendEntry 9 tupleD, (none : Option Error)).1.partition xorDecrypt
            MapOrder.insertion [frameA, frameB, frameC, frameU]).res =
          (tableABC.partition xorDecrypt MapOrder.insertion [frameA, frameB, frameC, frameU]).res ∧
        ((tableABC.appendEntry 9 tupleD, (none : Option Error)).1.partition xorDecrypt
            MapOrder.insertion [frameA, frameB, frameC, frameU]).err =
          (tableABC.partition xorDecrypt MapOrder.insertion [frameA, frameB, frameC, frameU]).err ∧
        ((tableABC.appendEntry 9 tupleD, (none : Option Error)).1.partition xorDecrypt
            MapOrder.insertion [frameA, frameB, frameC, frameU]).packets =
          (tableABC.partition xorDecrypt MapOrder.insertion
            [frameA, frameB, frameC, frameU]).packets ∧
        ((tableABC.appendEntry 9 tupleD, (none : Option Error)).1.partition xorDecrypt
            MapOrder.insertion [frameA, frameB, frameC, frameU]).calls =
          (tableABC.partition xorDecrypt MapOrder.insertion
            [frameA, frameB, frameC, frameU]).calls) :=
  ⟨by decide, store_of_free tableABC 9 tupleD (by decide),
    partition_ignores_other_address xorDecrypt MapOrder.insertion tableABC
      [frameA, frameB, frameC, frameU] 9 tupleD (by decide) _
      (store_of_free tableABC 9 tupleD (by decide))⟩

/-- C17, the code at a failing input. Under address 4 are stored `tupleP` and `tupleQ`,
and `tupleQ` decrypts `frameQ`: the batch `[frameQ]` has one frame that some stored tuple
decrypts. The rejected call for `tupleP` rewrites the payload, the call for `tupleQ`
fails on what is left, and the call returns no partition at all: the partitions hold 0
frames where the batch has 1 such frame. -/
theorem partition_loses_decryptable_frame :
    tablePQ.lookup 4 = [tupleP, tupleQ] ∧
      (xorDecrypt (portKey tupleQ payloadQ) payloadQ).2 = true ∧
      ([frameQ].filter (decryptable xorDecrypt tablePQ)).length = 1 ∧
      (tablePQ.partition xorDecrypt MapOrder.insertion [frameQ]).err = none ∧
      (tablePQ.partition xorDecrypt MapOrder.insertion [frameQ]).res = [] ∧
      ((tablePQ.partition xorDecrypt MapOrder.insertion [frameQ]).res.map
        (fun p => p.Packets.length)).sum = 0 := by
  decide

/-- C19. `partition` distributes over batch concatenation. For two batches of
well-formed frames and every AppEUI, the frame list of that AppEUI in the result for
the concatenated batch is its frame list in the result for the first batch followed by
its frame list in the result for the second, a missing partition counting as the nil
list, whatever the enumeration orders of the three calls. -/
theorem partition_concat (D : Decrypt) (ord ord₁ ord₂ : MapOrder) (db : handlerDB)
    (xs ys : List Packet) (hx : ∀ p ∈ xs, wellFormed p = true)
    (hy : ∀ p ∈ ys, wellFormed p = true) (k : EUI64) :
    framesOf (db.partition D ord (xs ++ ys)).res k =
      framesOf (db.partition D ord₁ xs).res k ++ framesOf (db.partition D ord₂ ys).res k := by
  have hxy : ∀ p ∈ xs ++ ys, wellFormed p = true := by
    intro p hp
    rcases List.mem_append.1 hp with h | h
    · exact hx p h
    · exact hy p h
  rw [framesOf_res D ord db _ hxy, framesOf_res D ord₁ db _ hx, framesOf_res D ord₂ db _ hy,
    List.filterMap_append, List.filter_append, List.map_append]

/-- C19, on an input: application 7 gets `frameA` from the first batch and `frameC`
from the second. -/
theorem partition_concat_witness :
    (∀ p ∈ [frameA, frameB], wellFormed p = true) ∧
      (∀ p ∈ [frameC, frameU], wellFormed p = true) ∧
      framesOf (tableABC.partition xorDecrypt MapOrder.insertion
          ([frameA, frameB] ++ [frameC, frameU])).res 7 =
        framesOf (tableABC.partition xorDecrypt MapOrder.insertion [frameA, frameB]).res 7 ++
          framesOf (tableABC.partition xorDecrypt MapOrder.insertion [frameC, frameU]).res 7 :=
  ⟨by decide, by decide,
    partition_concat xorDecrypt MapOrder.insertion MapOrder.insertion MapOrder.insertion
      tableABC [frameA, frameB] [frameC, frameU] (by decide) (by decide) 7⟩
